import Mathlib

/-!
Verification development for the complex-tokenization graph-rewriting merge
trainer (`complex_tokenization/graph.py` and `complex_tokenization/trainer.py`).

Graph vertices are shallowly embedded as an inductive type:
`Node` (byte-string leaf, bytes as `List Nat`), `NodesSequence` (ordered
children) and `Tree` (root plus ordered children).  Python's structural
equality (`Node.__eq__` compares values, the frozen dataclasses compare
fields) is the derived decidable equality on the inductive.
-/

inductive Vertex : Type where
  | node (value : List Nat)
  | seq (nodes : List Vertex)
  | tree (root : Vertex) (children : List Vertex)
deriving Repr

mutual

/-- Structural equality on vertices (Python `==`): `Node.__eq__` compares
values, the frozen dataclasses compare fields, different variants are
unequal. -/
def vbeq : Vertex → Vertex → Bool
  | .node a, .node b => decide (a = b)
  | .seq as, .seq bs => vbeqList as bs
  | .tree r cs, .tree s ds => vbeq r s && vbeqList cs ds
  | _, _ => false

/-- Elementwise structural equality on vertex lists. -/
def vbeqList : List Vertex → List Vertex → Bool
  | [], [] => true
  | a :: as, b :: bs => vbeq a b && vbeqList as bs
  | _, _ => false

end

/-- Strong induction on the size of a vertex. -/
theorem vertex_strong_ind {P : Vertex → Prop}
    (ih : ∀ v, (∀ w : Vertex, sizeOf w < sizeOf v → P w) → P v) : ∀ v, P v := by
  intro v
  have key : ∀ n, ∀ v : Vertex, sizeOf v < n → P v := by
    intro n
    induction n with
    | zero => intro v h; omega
    | succ n IH => intro v h; exact ih v (fun w hw => IH w (by omega))
  exact key (sizeOf v + 1) v (by omega)

theorem vbeqList_iff_of (as bs : List Vertex)
    (h : ∀ x ∈ as, ∀ y, vbeq x y = true ↔ x = y) :
    vbeqList as bs = true ↔ as = bs := by
  induction as generalizing bs with
  | nil => cases bs <;> simp [vbeqList]
  | cons a as ihl =>
    cases bs with
    | nil => simp [vbeqList]
    | cons b bs =>
      simp only [vbeqList, Bool.and_eq_true]
      rw [h a (by simp) b, ihl bs (fun x hx => h x (by simp [hx]))]
      simp

theorem vbeq_iff : ∀ a b : Vertex, vbeq a b = true ↔ a = b := by
  have main : ∀ a : Vertex, ∀ b, vbeq a b = true ↔ a = b := by
    apply vertex_strong_ind
    intro v IH b
    cases v with
    | node a =>
      cases b <;> simp [vbeq]
    | seq as =>
      cases b with
      | node _ => simp [vbeq]
      | tree _ _ => simp [vbeq]
      | seq bs =>
        have := vbeqList_iff_of as bs (fun x hx y =>
          IH x (by
            have hx2 := List.sizeOf_lt_of_mem hx
            simp only [Vertex.seq.sizeOf_spec]
            omega) y)
        simp [vbeq, this]
    | tree r cs =>
      cases b with
      | node _ => simp [vbeq]
      | seq _ => simp [vbeq]
      | tree s ds =>
        have hr : vbeq r s = true ↔ r = s := IH r (by simp; omega) s
        have hcs := vbeqList_iff_of cs ds (fun x hx y =>
          IH x (by
            have hx2 := List.sizeOf_lt_of_mem hx
            simp only [Vertex.tree.sizeOf_spec]
            omega) y)
        simp [vbeq, hr, hcs]
  exact main

instance : DecidableEq Vertex := fun a b =>
  decidable_of_iff (vbeq a b = true) (vbeq_iff a b)

/-- `isinstance(v, Node)`. -/
def isNode : Vertex → Bool
  | .node _ => true
  | _ => false

mutual

/-- Byte serialization `bytes(v)` (`__bytes__` of each vertex class):
a `Node` is its value, a `NodesSequence` concatenates its children, a
`Tree` concatenates its root and children. -/
def vbytes : Vertex → List Nat
  | .node b => b
  | .seq ns => vbytesList ns
  | .tree r cs => vbytes r ++ vbytesList cs

/-- Concatenated byte serialization of a list of vertices. -/
def vbytesList : List Vertex → List Nat
  | [] => []
  | v :: vs => vbytes v ++ vbytesList vs

end

mutual

/-- Number of `Node` leaves in a vertex (the spec's `|v|`). -/
def leafCount : Vertex → Nat
  | .node _ => 1
  | .seq ns => leafCountList ns
  | .tree r cs => leafCount r + leafCountList cs

/-- Number of `Node` leaves in a list of vertices. -/
def leafCountList : List Vertex → Nat
  | [] => 0
  | v :: vs => leafCount v + leafCountList vs

end

/-!
Rewriter (`NodesSequence.merge`, `Tree.merge`, `Node.merge`).

The Python `merge(self, token, merge)` receives a `Node` token; only
`token.value` is ever read, so the embedding passes the token's byte value
`tv` directly.  `mergeScan` is the `while i <= len(nodes) - m` loop of
`NodesSequence.merge`: greedy left-to-right replacement of each matching
span by `Node(token.value)`, with the unscanned tail appended unchanged.
A `merge` tuple is a `List Vertex`.

The Python loop does not terminate for an empty merge tuple (`i += 0`);
the embedding returns the input unchanged in that never-exercised case
(every enumerated candidate has at least 2 elements).
-/

def mergeScan (M : List Vertex) (t : Vertex) : List Vertex → List Vertex
  | [] => []
  | x :: xs =>
    if M.length = 0 then x :: xs
    else if (x :: xs).length < M.length then x :: xs
    else if (x :: xs).take M.length = M then
      t :: mergeScan M t ((x :: xs).drop M.length)
    else
      x :: mergeScan M t xs
termination_by l => l.length
decreasing_by
  · simp
    rename_i h0 _ _
    omega
  · simp

/-- Elements of the scan output are either elements of the input or the
replacement token. -/
theorem mem_mergeScan {M : List Vertex} {t : Vertex} :
    ∀ {ns : List Vertex} {x : Vertex}, x ∈ mergeScan M t ns → x ∈ ns ∨ x = t := by
  intro ns
  induction ns using mergeScan.induct M t with
  | case1 => intro x hx; simp [mergeScan] at hx
  | case2 y ys h0 =>
    intro x hx
    rw [mergeScan, if_pos h0] at hx
    exact Or.inl hx
  | case3 y ys h0 hlt =>
    intro x hx
    rw [mergeScan, if_neg h0, if_pos hlt] at hx
    exact Or.inl hx
  | case4 y ys h0 hlt heq IH =>
    intro x hx
    rw [mergeScan, if_neg h0, if_neg hlt, if_pos heq] at hx
    rcases List.mem_cons.mp hx with h | h
    · exact Or.inr h
    · rcases IH h with h2 | h2
      · exact Or.inl (List.mem_of_mem_drop h2)
      · exact Or.inr h2
  | case5 y ys h0 hlt hne IH =>
    intro x hx
    rw [mergeScan, if_neg h0, if_neg hlt, if_neg hne] at hx
    rcases List.mem_cons.mp hx with h | h
    · exact Or.inl (h ▸ List.mem_cons_self y ys)
    · rcases IH h with h2 | h2
      · exact Or.inl (List.mem_cons_of_mem y h2)
      · exact Or.inr h2

/-- The rewriter.  `Node.merge` returns itself; `NodesSequence.merge` scans
greedily, returns the sole element when the output is a singleton (before
recursing), and otherwise recurses into every output element;
`Tree.merge` returns the token node when the tuple equals
`(root, *children)` and otherwise recurses into root and children.
(The guard returning a token node unchanged mirrors `Node.merge`, which is
the identity; it only serves the termination argument.) -/
def Vertex.merge (tv : List Nat) (M : List Vertex) (v : Vertex) : Vertex :=
  match v with
  | .node b => .node b
  | .seq ns =>
    let out := mergeScan M (.node tv) ns
    if out.length = 1 then out.headD (.node tv)
    else .seq (out.attach.map (fun xa =>
        if _hx : xa.1 = Vertex.node tv then Vertex.node tv
        else Vertex.merge tv M xa.1))
  | .tree r cs =>
    if M = r :: cs then .node tv
    else .tree (Vertex.merge tv M r)
        (cs.attach.map (fun ca => Vertex.merge tv M ca.1))
termination_by sizeOf v
decreasing_by
  · rcases mem_mergeScan xa.2 with h | h
    · have := List.sizeOf_lt_of_mem h
      simp only [Vertex.seq.sizeOf_spec]
      omega
    · exact absurd h _hx
  · simp; omega
  · have := List.sizeOf_lt_of_mem ca.2
    simp only [Vertex.tree.sizeOf_spec]
    omega

theorem merge_node (tv : List Nat) (M : List Vertex) (b : List Nat) :
    Vertex.merge tv M (.node b) = .node b := by
  simp [Vertex.merge]

/-- Unfolding of the sequence branch of the rewriter, with the
termination-artifact guard eliminated (`Node.merge` is the identity). -/
theorem merge_seq (tv : List Nat) (M : List Vertex) (ns : List Vertex) :
    Vertex.merge tv M (.seq ns) =
      (if (mergeScan M (.node tv) ns).length = 1
       then (mergeScan M (.node tv) ns).headD (.node tv)
       else .seq ((mergeScan M (.node tv) ns).map (Vertex.merge tv M))) := by
  rw [Vertex.merge]
  congr 1
  congr 1
  calc List.map (fun (xa : {x // x ∈ mergeScan M (.node tv) ns}) =>
          (fun y => if y = Vertex.node tv then Vertex.node tv
                    else Vertex.merge tv M y) xa.1)
        (mergeScan M (.node tv) ns).attach
      = (mergeScan M (.node tv) ns).map
          (fun y => if y = Vertex.node tv then Vertex.node tv
                    else Vertex.merge tv M y) :=
        List.attach_map_val (mergeScan M (.node tv) ns)
          (fun y => if y = Vertex.node tv then Vertex.node tv
                    else Vertex.merge tv M y)
    _ = (mergeScan M (.node tv) ns).map (Vertex.merge tv M) := by
        apply List.map_congr_left
        intro x _
        by_cases hx : x = Vertex.node tv
        · subst hx; rw [if_pos rfl, merge_node]
        · rw [if_neg hx]

theorem merge_tree (tv : List Nat) (M : List Vertex) (r : Vertex)
    (cs : List Vertex) :
    Vertex.merge tv M (.tree r cs) =
      (if M = r :: cs then .node tv
       else .tree (Vertex.merge tv M r) (cs.map (Vertex.merge tv M))) := by
  rw [Vertex.merge]
  by_cases h : M = r :: cs
  · simp [h]
  · simp only [if_neg h]
    congr 1
    exact List.attach_map_val cs (Vertex.merge tv M)

/-!
Merge enumerator (`GraphVertex.get_merges`, `NodesSequence.get_merges`,
`Tree.get_merges`).  The module-level configuration constants
`MAX_MERGE_SIZE` and `ONLY_MINIMAL_MERGES` are threaded as parameters
`mms` and `oMM`.  `candIdx` produces the `(i, j)` index pairs of the
`for i / for j` loops of `NodesSequence.get_merges`, where the `break`
is a `takeWhile` over the contiguous `j`-range, and the yielded candidate
for `(i, j)` is the slice `nodes[i:j]`.
-/

/-- The `break` guard of `NodesSequence.get_merges`, as a pass predicate:
iteration `j` proceeds unless `ONLY_MINIMAL_MERGES and j < num_nodes and
not isinstance(self.nodes[j], Node)`. -/
def gatePass (oMM : Bool) (ns : List Vertex) (j : Nat) : Bool :=
  !(oMM && decide (j < ns.length) && !(isNode (ns.getD j (.node []))))

/-- Index pairs `(i, j)` of candidates yielded by the window loops:
`i` ranges over `range(num_nodes)`, `j` over
`range(i+2, min(i + MAX_MERGE_SIZE + 1, num_nodes + 1))` cut short by the
`break`. -/
def candIdx (mms : Nat) (oMM : Bool) (ns : List Vertex) : List (Nat × Nat) :=
  (List.range ns.length).flatMap (fun i =>
    ((List.range' (i + 2) (min (i + mms + 1) (ns.length + 1) - (i + 2))).takeWhile
        (fun j => gatePass oMM ns j)).map (fun j => (i, j)))

/-- `self.nodes[i:j]`. -/
def winSlice (ns : List Vertex) (i j : Nat) : List Vertex :=
  (ns.drop i).take (j - i)

/-- The window candidates of a `NodesSequence`, in yield order. -/
def seqWindows (mms : Nat) (oMM : Bool) (ns : List Vertex) : List (List Vertex) :=
  (candIdx mms oMM ns).map (fun p => winSlice ns p.1 p.2)

mutual

/-- `get_merges`: a `Node` yields nothing; a `NodesSequence` first recurses
into each child in order, then yields its window candidates; a `Tree`
recurses into the root, yields `(root,) + children`, then recurses into
each child. -/
def getMerges (mms : Nat) (oMM : Bool) : Vertex → List (List Vertex)
  | .node _ => []
  | .seq ns => getMergesList mms oMM ns ++ seqWindows mms oMM ns
  | .tree r cs => getMerges mms oMM r ++ [r :: cs] ++ getMergesList mms oMM cs

/-- Concatenated `get_merges` over a list of vertices, in order. -/
def getMergesList (mms : Nat) (oMM : Bool) : List Vertex → List (List Vertex)
  | [] => []
  | v :: vs => getMerges mms oMM v ++ getMergesList mms oMM vs

end

/-!
Trainer (`Trainer.train`).  One iteration enumerates the candidates of the
current graph, filters out candidates containing a non-`Node` element when
`GraphSettings.ONLY_MINIMAL_MERGES` is set (there is no separate
`only_tokens` option), tallies them into a `Counter` (insertion order =
first-occurrence order), scores each distinct candidate `k` with
`(len(k) - 1) * v`, picks `most_common(1)` (the first entry attaining the
maximal score, since `heapq.nlargest` is stable) and rewrites the graph
with the token `reduce(add, nodes)` (for an all-`Node` candidate, the
`Node` whose value is the concatenation of the candidate values; for other
candidates the rewrite raises `AttributeError`, modelled as `none`).
-/

/-- Candidate stream of one trainer iteration, after the
`ONLY_MINIMAL_MERGES` filter of `Trainer.train`. -/
def streamCands (mms : Nat) (oMM : Bool) (g : Vertex) : List (List Vertex) :=
  if oMM then (getMerges mms oMM g).filter (fun m => m.all isNode)
  else getMerges mms oMM g

/-- Distinct elements of a list in first-occurrence order (the key order
of a `Counter` built from the list). -/
def distinctFirst : List (List Vertex) → List (List Vertex)
  | [] => []
  | x :: xs => x :: (distinctFirst xs).filter (fun y => y != x)

/-- `Counter(stream)` as an association list in insertion order. -/
def tallyOf (l : List (List Vertex)) : List (List Vertex × Nat) :=
  (distinctFirst l).map (fun x => (x, l.count x))

/-- `merges_compression`: each tallied candidate `k` with count `v` is
scored `(len(k) - 1) * v`. -/
def scoredTally (l : List (List Vertex)) : List (List Vertex × Nat) :=
  (tallyOf l).map (fun p => (p.1, (p.1.length - 1) * p.2))

/-- `Counter.most_common(1)`: the first entry (in insertion order)
attaining the maximal count (`heapq.nlargest` is stable). -/
def mostCommon1 : List (List Vertex × Nat) → Option (List Vertex × Nat)
  | [] => none
  | p :: ps =>
    match mostCommon1 ps with
    | none => some p
    | some q => if q.2 > p.2 then some q else some p

/-- The candidate selected by one trainer iteration (`none` when the tally
is empty, which breaks the loop). -/
def selectMerge (mms : Nat) (oMM : Bool) (g : Vertex) : Option (List Vertex) :=
  (mostCommon1 (scoredTally (streamCands mms oMM g))).map Prod.fst

/-- Byte value of the synthesized token `reduce(lambda x, y: x + y, nodes)`
for an all-`Node` candidate (`Node.__add__` concatenates values). -/
def tokenBytes (M : List Vertex) : List Nat :=
  (M.map vbytes).flatten

/-- One successful iteration of `Trainer.train`: select, synthesize the
token, rewrite.  Returns `none` when no candidate remains (loop break) or
when the selected candidate is not all-`Node` (the `reduce`/`merge` pair
then raises `AttributeError` on the non-`Node` token). -/
def trainStep (mms : Nat) (oMM : Bool) (g : Vertex) : Option Vertex :=
  match selectMerge mms oMM g with
  | none => none
  | some M =>
    if M.all isNode then some (Vertex.merge (tokenBytes M) M g)
    else none

/-- `Trainer.train(num_merges = k)` on graph `g`: iterate `trainStep`
until `k` merges are recorded or the step fails. -/
def trainRun (mms : Nat) (oMM : Bool) : Nat → Vertex → Vertex
  | 0, g => g
  | k + 1, g =>
    match trainStep mms oMM g with
    | none => g
    | some g2 => trainRun mms oMM k g2

/-- The byte-leaf builder `utf8`: one `Node` per byte; a single node is
returned bare, otherwise a `NodesSequence` (Python first encodes the
string to UTF-8; the embedding receives the byte list). -/
def utf8 (bs : List Nat) : Vertex :=
  if bs.length = 1 then .node bs
  else .seq (bs.map (fun b => Vertex.node [b]))

/-! Properties of the tally and of `most_common(1)`. -/

theorem distinctFirst_sub : ∀ {l : List (List Vertex)} {x},
    x ∈ distinctFirst l → x ∈ l := by
  intro l
  induction l with
  | nil => intro x hx; simp [distinctFirst] at hx
  | cons a as IH =>
    intro x hx
    rw [distinctFirst] at hx
    rcases List.mem_cons.mp hx with h | h
    · exact h ▸ List.mem_cons_self a as
    · exact List.mem_cons_of_mem a (IH (List.mem_of_mem_filter h))

theorem mem_distinctFirst : ∀ {l : List (List Vertex)} {x},
    x ∈ l → x ∈ distinctFirst l := by
  intro l
  induction l with
  | nil => intro x hx; simp at hx
  | cons a as IH =>
    intro x hx
    rw [distinctFirst]
    rcases List.mem_cons.mp hx with h | h
    · exact h ▸ List.mem_cons_self _ _
    · by_cases hax : x = a
      · exact hax ▸ List.mem_cons_self _ _
      · refine List.mem_cons_of_mem _ ?_
        refine List.mem_filter.mpr ⟨IH h, ?_⟩
        simp [hax]

theorem mem_scoredTally {l : List (List Vertex)} {p : List Vertex × Nat}
    (hp : p ∈ scoredTally l) :
    p.1 ∈ l ∧ p.2 = (p.1.length - 1) * l.count p.1 := by
  rcases List.mem_map.mp hp with ⟨q, hq, hpq⟩
  rcases List.mem_map.mp hq with ⟨x, hx, hqx⟩
  subst hqx
  constructor
  · rw [← hpq]; exact distinctFirst_sub hx
  · rw [← hpq]

theorem scoredTally_mem_of {l : List (List Vertex)} {x : List Vertex}
    (hx : x ∈ l) : (x, (x.length - 1) * l.count x) ∈ scoredTally l := by
  refine List.mem_map.mpr ⟨(x, l.count x), ?_, rfl⟩
  exact List.mem_map.mpr ⟨x, mem_distinctFirst hx, rfl⟩

theorem mostCommon1_none {l : List (List Vertex × Nat)} :
    mostCommon1 l = none → l = [] := by
  cases l with
  | nil => intro; rfl
  | cons p ps =>
    intro h
    rw [mostCommon1] at h
    rcases hm : mostCommon1 ps with _ | q <;> rw [hm] at h
    · simp at h
    · by_cases hgt : q.2 > p.2 <;> simp [hgt] at h

/-- `most_common(1)` returns the first entry attaining the maximal count:
the entry is in the list, every count is `≤` its count, and every entry
strictly before it has a strictly smaller count. -/
theorem mostCommon1_first : ∀ {l : List (List Vertex × Nat)} {p},
    mostCommon1 l = some p →
      ∃ l1 l2, l = l1 ++ p :: l2 ∧ (∀ q ∈ l1, q.2 < p.2) ∧ ∀ q ∈ l, q.2 ≤ p.2 := by
  intro l
  induction l with
  | nil => intro p h; simp [mostCommon1] at h
  | cons a as IH =>
    intro p h
    rw [mostCommon1] at h
    rcases hm : mostCommon1 as with _ | q <;> rw [hm] at h
    · have has : as = [] := mostCommon1_none hm
      subst has
      have hap : a = p := by simpa using h
      subst hap
      exact ⟨[], [], rfl, by simp, by simp⟩
    · rcases IH hm with ⟨l1, l2, heq, hlt, hle⟩
      change (if q.2 > a.2 then some q else some a) = some p at h
      by_cases hgt : q.2 > a.2
      · rw [if_pos hgt] at h
        rcases Option.some_inj.mp h with rfl
        refine ⟨a :: l1, l2, by rw [heq]; simp, ?_, ?_⟩
        · intro r hr
          rcases List.mem_cons.mp hr with rfl | hr2
          · exact hgt
          · exact hlt r hr2
        · intro r hr
          rcases List.mem_cons.mp hr with rfl | hr2
          · exact Nat.le_of_lt hgt
          · exact hle r hr2
      · rw [if_neg hgt] at h
        rcases Option.some_inj.mp h with rfl
        refine ⟨[], as, rfl, by simp, ?_⟩
        intro r hr
        rcases List.mem_cons.mp hr with rfl | hr2
        · exact Nat.le_refl _
        · exact Nat.le_trans (hle r hr2) (Nat.le_of_not_lt hgt)

theorem mostCommon1_mem {l : List (List Vertex × Nat)} {p}
    (h : mostCommon1 l = some p) : p ∈ l := by
  rcases mostCommon1_first h with ⟨l1, l2, heq, _, _⟩
  rw [heq]
  exact List.mem_append_right l1 (List.mem_cons_self p l2)

/-!
Claim theorems, first batch: the enumeration scenario (C7), construction
behavior (C8), selection and tie-breaking (C2, C5), the trainer filter
(C10).
-/

/-- C7: on the byte-leaf graph of "lalaland" (bytes
`l a l a l a n d` = `108 97 108 97 108 97 110 100`) with
`MAX_MERGE_SIZE = 2` and `ONLY_MINIMAL_MERGES = true`, the enumerator
yields exactly four distinct candidate tuples with frequencies
`la ↦ 3`, `al ↦ 2`, `an ↦ 1`, `nd ↦ 1`. -/
theorem C7_lalaland_enumeration :
    tallyOf (getMerges 2 true (utf8 [108, 97, 108, 97, 108, 97, 110, 100])) =
      [([Vertex.node [108], Vertex.node [97]], 3),
       ([Vertex.node [97], Vertex.node [108]], 2),
       ([Vertex.node [97], Vertex.node [110]], 1),
       ([Vertex.node [110], Vertex.node [100]], 1)] := by decide

/-- C8 counterexample: the byte-leaf builder accepts the degenerate empty
input and returns a `NodesSequence` with zero (fewer than 2) children —
no construction-time error is raised by `NodesSequence` (the dataclass has
no validation) or by `utf8`. -/
theorem C8_counterexample :
    utf8 [] = Vertex.seq [] ∧ ([] : List Vertex).length < 2 :=
  ⟨by decide, by decide⟩

/-- C8 (amended): construction performs no validation.  The builder
collapses a singleton to its sole child (so a 1-child Sequence never
arises from `utf8`), maps a 1-byte input to a bare `Node`, and maps the
empty input to an empty Sequence, all without error. -/
theorem C8_no_construction_validation :
    (∀ (bs : List Nat) (x : Vertex), utf8 bs ≠ Vertex.seq [x]) ∧
      utf8 [] = Vertex.seq [] ∧ ∀ b : Nat, utf8 [b] = Vertex.node [b] := by
  refine ⟨?_, by decide, fun b => by simp [utf8]⟩
  intro bs x h
  unfold utf8 at h
  by_cases hl : bs.length = 1
  · rw [if_pos hl] at h
    exact Vertex.noConfusion h
  · rw [if_neg hl] at h
    have h2 : (bs.map (fun b => Vertex.node [b])) = [x] := by
      injection h
    have := congrArg List.length h2
    simp at this
    exact hl this

/-- C8 witness: the amended theorem applied at a concrete input. -/
theorem C8_witness :
    utf8 [97, 98] ≠ Vertex.seq [Vertex.node [97]] :=
  C8_no_construction_validation.1 [97, 98] (Vertex.node [97])

/-- C2 counterexample: on the byte leaves of "abcbc" with
`MAX_MERGE_SIZE = 3`, the candidates `(b, c)` (frequency 2) and
`(a, b, c)` (frequency 1) both attain the maximal score 2, yet the trainer
selects `(a, b, c)` — not the tied candidate with the greater frequency,
contradicting the claimed `greater f` tie-break. -/
theorem C2_counterexample :
    selectMerge 3 true (utf8 [97, 98, 99, 98, 99]) =
        some [Vertex.node [97], Vertex.node [98], Vertex.node [99]] ∧
      (streamCands 3 true (utf8 [97, 98, 99, 98, 99])).count
          [Vertex.node [98], Vertex.node [99]] = 2 ∧
      (streamCands 3 true (utf8 [97, 98, 99, 98, 99])).count
          [Vertex.node [97], Vertex.node [98], Vertex.node [99]] = 1 ∧
      ([Vertex.node [98], Vertex.node [99]], 2) ∈
        scoredTally (streamCands 3 true (utf8 [97, 98, 99, 98, 99])) ∧
      ([Vertex.node [97], Vertex.node [98], Vertex.node [99]], 2) ∈
        scoredTally (streamCands 3 true (utf8 [97, 98, 99, 98, 99])) ∧
      (scoredTally (streamCands 3 true (utf8 [97, 98, 99, 98, 99]))).all
        (fun q => decide (q.2 ≤ 2)) = true := by decide

/-- C2 (amended): ties among maximal-score candidates are broken by
first-occurrence order in the enumeration stream (the insertion order of
the tally), not by frequency, length or lexicographic bytes: the selected
candidate is the unique entry of the scored tally that attains the maximal
score while every earlier entry scores strictly less. -/
theorem C2_tie_break_is_enumeration_order (mms : Nat) (oMM : Bool)
    (g : Vertex) (M : List Vertex)
    (h : selectMerge mms oMM g = some M) :
    ∃ s l1 l2,
      scoredTally (streamCands mms oMM g) = l1 ++ (M, s) :: l2 ∧
        (∀ q ∈ l1, q.2 < s) ∧
        ∀ q ∈ scoredTally (streamCands mms oMM g), q.2 ≤ s := by
  unfold selectMerge at h
  rcases Option.map_eq_some'.mp h with ⟨p, hp, hfst⟩
  rcases mostCommon1_first hp with ⟨l1, l2, heq, hlt, hle⟩
  refine ⟨p.2, l1, l2, ?_, hlt, hle⟩
  rw [heq, ← hfst]

/-- C2 witness: the amended theorem applied to the counterexample input. -/
theorem C2_witness :
    selectMerge 3 true (utf8 [97, 98, 99, 98, 99]) =
        some [Vertex.node [97], Vertex.node [98], Vertex.node [99]] ∧
      ∃ s l1 l2,
        scoredTally (streamCands 3 true (utf8 [97, 98, 99, 98, 99])) =
            l1 ++ ([Vertex.node [97], Vertex.node [98], Vertex.node [99]], s) :: l2 ∧
          (∀ q ∈ l1, q.2 < s) ∧
          ∀ q ∈ scoredTally (streamCands 3 true (utf8 [97, 98, 99, 98, 99])),
            q.2 ≤ s :=
  ⟨by decide,
    C2_tie_break_is_enumeration_order 3 true (utf8 [97, 98, 99, 98, 99])
      [Vertex.node [97], Vertex.node [98], Vertex.node [99]] (by decide)⟩

/-- C5: each distinct tallied candidate `N` is scored
`(len(N) - 1) * count(N)` and the selected candidate attains the maximal
score over the tallied candidates. -/
theorem C5_selected_maximizes_score (mms : Nat) (oMM : Bool)
    (g : Vertex) (M : List Vertex)
    (h : selectMerge mms oMM g = some M) :
    M ∈ streamCands mms oMM g ∧
      ∀ N ∈ streamCands mms oMM g,
        (N.length - 1) * (streamCands mms oMM g).count N ≤
          (M.length - 1) * (streamCands mms oMM g).count M := by
  unfold selectMerge at h
  rcases Option.map_eq_some'.mp h with ⟨p, hp, hfst⟩
  rcases mostCommon1_first hp with ⟨l1, l2, heq, hlt, hle⟩
  have hmem := mostCommon1_mem hp
  have hst := mem_scoredTally hmem
  refine ⟨hfst ▸ hst.1, ?_⟩
  intro N hN
  have hNs := scoredTally_mem_of hN
  have := hle _ hNs
  calc (N.length - 1) * (streamCands mms oMM g).count N ≤ p.2 := this
    _ = (p.1.length - 1) * (streamCands mms oMM g).count p.1 := hst.2
    _ = (M.length - 1) * (streamCands mms oMM g).count M := by rw [hfst]

/-- C5 witness: the theorem applied at the "abcbc" byte-leaf graph. -/
theorem C5_witness :
    [Vertex.node [97], Vertex.node [98], Vertex.node [99]] ∈
        streamCands 3 true (utf8 [97, 98, 99, 98, 99]) ∧
      ∀ N ∈ streamCands 3 true (utf8 [97, 98, 99, 98, 99]),
        (N.length - 1) * (streamCands 3 true (utf8 [97, 98, 99, 98, 99])).count N ≤
          ([Vertex.node [97], Vertex.node [98], Vertex.node [99]].length - 1) *
            (streamCands 3 true (utf8 [97, 98, 99, 98, 99])).count
              [Vertex.node [97], Vertex.node [98], Vertex.node [99]] :=
  C5_selected_maximizes_score 3 true (utf8 [97, 98, 99, 98, 99])
    [Vertex.node [97], Vertex.node [98], Vertex.node [99]] (by decide)

/-- C10: candidates containing a non-`Node` element are removed from the
tally exactly when `ONLY_MINIMAL_MERGES` is set (there is no independent
`only_tokens` option in `Trainer.train`): with the setting on, every
selected candidate is all-`Node`; with it off, a selected candidate can
contain a `NodesSequence` element, as on the tree graph
`Tree(x, [Seq(a, b)])`. -/
theorem C10_filter_iff_only_minimal_merges :
    (∀ (mms : Nat) (g : Vertex) (M : List Vertex),
        selectMerge mms true g = some M → M.all isNode = true) ∧
      selectMerge 3 false
          (Vertex.tree (.node [120]) [Vertex.seq [.node [97], .node [98]]]) =
        some [Vertex.node [120], Vertex.seq [Vertex.node [97], Vertex.node [98]]] ∧
      ([Vertex.node [120],
          Vertex.seq [Vertex.node [97], Vertex.node [98]]].all isNode = false) := by
  refine ⟨?_, by decide, by decide⟩
  intro mms g M h
  unfold selectMerge at h
  rcases Option.map_eq_some'.mp h with ⟨p, hp, hfst⟩
  have hmem := (mem_scoredTally (mostCommon1_mem hp)).1
  rw [streamCands] at hmem
  simp only [if_pos] at hmem
  have := (List.mem_filter.mp hmem).2
  rw [hfst] at this
  exact this

/-- C10 witness: the all-`Node` conclusion at a concrete selection. -/
theorem C10_witness :
    [Vertex.node [97], Vertex.node [98]].all isNode = true :=
  C10_filter_iff_only_minimal_merges.1 2 (utf8 [97, 98])
    [Vertex.node [97], Vertex.node [98]] (by decide)

/-!
Claim C3: the minimality gate of `NodesSequence.get_merges`.
-/

/-- In a `takeWhile` prefix of a contiguous range, the predicate holds at
every position strictly before a member of the prefix. -/
theorem pass_before_mem_takeWhile_range' {p : Nat → Bool} :
    ∀ {len s j k : Nat}, j ∈ (List.range' s len).takeWhile p →
      s ≤ k → k < j → p k = true := by
  intro len
  induction len with
  | zero => intro s j k hj; simp at hj
  | succ n IH =>
    intro s j k hj hk hkj
    rw [List.range'_succ] at hj
    by_cases hs : p s
    · rw [List.takeWhile_cons_of_pos hs] at hj
      rcases List.mem_cons.mp hj with rfl | hj2
      · omega
      · rcases Nat.eq_or_lt_of_le hk with rfl | hk2
        · exact hs
        · exact IH hj2 hk2 hkj
    · rw [List.takeWhile_cons_of_neg hs] at hj
      simp at hj

/-- Membership facts for a candidate index pair `(i, j)` produced by the
window loops. -/
theorem mem_candIdx {mms : Nat} {oMM : Bool} {ns : List Vertex} {i j : Nat}
    (h : (i, j) ∈ candIdx mms oMM ns) :
    i < ns.length ∧ i + 2 ≤ j ∧ j < min (i + mms + 1) (ns.length + 1) ∧
      j ∈ (List.range' (i + 2)
          (min (i + mms + 1) (ns.length + 1) - (i + 2))).takeWhile
          (fun j => gatePass oMM ns j) := by
  rcases List.mem_flatMap.mp h with ⟨i2, hi2, hj⟩
  rcases List.mem_map.mp hj with ⟨j2, hj2, hpair⟩
  rcases Prod.mk.injEq .. ▸ hpair with h2
  injection hpair with e1 e2
  subst e1; subst e2
  have hir := List.mem_range.mp hi2
  have hjr := (List.takeWhile_prefix _).subset hj2
  rcases List.mem_range'.mp hjr with ⟨k, hk, hkj⟩
  refine ⟨hir, by omega, by omega, hj2⟩

/-- C3 counterexample: with `ONLY_MINIMAL_MERGES = true`, the sequence
`[Tree(x, ()), a, b]` yields the candidate `(Tree(x, ()), a)`, which starts
on a non-Token: the gate inspects `nodes[j]` (one past the candidate) and
never the candidate's own first elements. -/
theorem C3_counterexample :
    [Vertex.tree (.node [120]) [], Vertex.node [97]] ∈
        getMerges 3 true
          (Vertex.seq [Vertex.tree (.node [120]) [], Vertex.node [97], Vertex.node [98]]) ∧
      isNode (Vertex.tree (.node [120]) []) = false := by decide

/-- C3 (amended): with `ONLY_MINIMAL_MERGES = true`, every window
candidate of a Sequence is the slice `nodes[i:j]` for an emitted pair
`(i, j)` with `i + 2 ≤ j ≤ len(nodes)` such that every element at a
position in `[i+2, j)` is a Token and, when `j < len(nodes)`, so is the
element at the boundary `j`; consequently once a non-Token sits at a
position `k ≥ i + 2` no candidate of starting index `i` reaches `k`.  The
candidate's own first two elements are not checked. -/
theorem C3_gate_checks_positions_beyond_two (mms : Nat) (ns : List Vertex)
    (c : List Vertex) (h : c ∈ seqWindows mms true ns) :
    ∃ i j, c = winSlice ns i j ∧ (i, j) ∈ candIdx mms true ns ∧
      i + 2 ≤ j ∧ j ≤ ns.length ∧
      (∀ k, i + 2 ≤ k → k < j → isNode (ns.getD k (.node [])) = true) ∧
      (j < ns.length → isNode (ns.getD j (.node [])) = true) ∧
      ∀ k, i + 2 ≤ k → k < ns.length →
        isNode (ns.getD k (.node [])) = false → j < k := by
  rcases List.mem_map.mp h with ⟨⟨i, j⟩, hij, hc⟩
  rcases mem_candIdx hij with ⟨hi, hij2, hjb, htw⟩
  have hjle : j ≤ ns.length := by omega
  have hpass : ∀ k, i + 2 ≤ k → k ≤ j → gatePass true ns k = true := by
    intro k hk hkj
    rcases Nat.eq_or_lt_of_le hkj with rfl | hlt
    · have := List.all_takeWhile (p := fun j => gatePass true ns j)
        (l := List.range' (i + 2) (min (i + mms + 1) (ns.length + 1) - (i + 2)))
      exact List.all_eq_true.mp this _ htw
    · exact pass_before_mem_takeWhile_range' htw hk hlt
  have hnode : ∀ k, i + 2 ≤ k → k ≤ j → k < ns.length →
      isNode (ns.getD k (.node [])) = true := by
    intro k hk hkj hklen
    have := hpass k hk hkj
    rw [gatePass] at this
    simpa [hklen] using this
  refine ⟨i, j, hc.symm, hij, hij2, hjle, ?_, ?_, ?_⟩
  · intro k hk hkj
    exact hnode k hk (by omega) (by omega)
  · intro hjlen
    exact hnode j (by omega) (by omega) hjlen
  · intro k hk hklen hfalse
    by_contra hle
    have := hnode k hk (by omega) hklen
    rw [this] at hfalse
    exact Bool.noConfusion hfalse

/-- C3 witness: the amended theorem at a concrete window candidate. -/
theorem C3_witness :
    ∃ i j, [Vertex.node [97], Vertex.node [98]] =
        winSlice [Vertex.node [97], Vertex.node [98]] i j ∧
      (i, j) ∈ candIdx 2 true [Vertex.node [97], Vertex.node [98]] ∧
      i + 2 ≤ j ∧ j ≤ 2 ∧
      (∀ k, i + 2 ≤ k → k < j →
        isNode ([Vertex.node [97], Vertex.node [98]].getD k (.node [])) = true) ∧
      (j < 2 →
        isNode ([Vertex.node [97], Vertex.node [98]].getD j (.node [])) = true) ∧
      ∀ k, i + 2 ≤ k → k < 2 →
        isNode ([Vertex.node [97], Vertex.node [98]].getD k (.node [])) = false →
          j < k :=
  C3_gate_checks_positions_beyond_two 2 [Vertex.node [97], Vertex.node [98]]
    [Vertex.node [97], Vertex.node [98]] (by decide)

/-!
Claim C4: byte (corpus) preservation under rewriting and training.
-/

theorem vbytesList_append : ∀ l1 l2 : List Vertex,
    vbytesList (l1 ++ l2) = vbytesList l1 ++ vbytesList l2 := by
  intro l1 l2
  induction l1 with
  | nil => simp [vbytesList]
  | cons x xs IH => simp [vbytesList, IH]

theorem vbytesList_flatten_map (l : List Vertex) :
    vbytesList l = (l.map vbytes).flatten := by
  induction l with
  | nil => simp [vbytesList]
  | cons x xs IH => simp [vbytesList, IH]

/-- The greedy scan preserves concatenated bytes when the token's bytes
are the concatenation of the merge tuple's bytes. -/
theorem vbytes_mergeScan (M : List Vertex) (tv : List Nat)
    (htv : tv = vbytesList M) :
    ∀ ns : List Vertex,
      vbytesList (mergeScan M (.node tv) ns) = vbytesList ns := by
  intro ns
  induction ns using mergeScan.induct M (Vertex.node tv) with
  | case1 => rw [mergeScan]
  | case2 y ys h0 => rw [mergeScan, if_pos h0]
  | case3 y ys h0 hlt => rw [mergeScan, if_neg h0, if_pos hlt]
  | case4 y ys h0 hlt heq IH =>
    rw [mergeScan, if_neg h0, if_neg hlt, if_pos heq]
    have hsplit : vbytesList (y :: ys) =
        vbytesList ((y :: ys).take M.length) ++
          vbytesList ((y :: ys).drop M.length) := by
      rw [← vbytesList_append, List.take_append_drop]
    rw [hsplit, heq]
    show vbytes (Vertex.node tv) ++
        vbytesList (mergeScan M (Vertex.node tv) ((y :: ys).drop M.length)) = _
    rw [IH, vbytes, htv]
  | case5 y ys h0 hlt hne IH =>
    rw [mergeScan, if_neg h0, if_neg hlt, if_neg hne]
    show vbytes y ++ vbytesList (mergeScan M (Vertex.node tv) ys) = _
    rw [IH]
    rfl

theorem vbytesList_map_congr {g : Vertex → Vertex} {l : List Vertex}
    (h : ∀ x ∈ l, vbytes (g x) = vbytes x) :
    vbytesList (l.map g) = vbytesList l := by
  induction l with
  | nil => rfl
  | cons x xs IH =>
    show vbytes (g x) ++ vbytesList (xs.map g) = vbytes x ++ vbytesList xs
    rw [h x (List.mem_cons_self x xs), IH (fun y hy => h y (List.mem_cons_of_mem x hy))]

/-- Rewriting preserves the byte serialization whenever the token's bytes
are the concatenation of the merge tuple's bytes. -/
theorem vbytes_merge (M : List Vertex) (tv : List Nat)
    (htv : tv = vbytesList M) :
    ∀ v : Vertex, vbytes (Vertex.merge tv M v) = vbytes v := by
  apply vertex_strong_ind
  intro v IH
  cases v with
  | node b => rw [merge_node]
  | seq ns =>
    rw [merge_seq]
    by_cases hone : (mergeScan M (.node tv) ns).length = 1
    · rw [if_pos hone]
      rcases hsc : mergeScan M (.node tv) ns with _ | ⟨x, rest⟩
      · rw [hsc] at hone; simp at hone
      · rw [hsc] at hone
        simp only [List.length_cons] at hone
        have hrest : rest = [] := by
          cases rest with
          | nil => rfl
          | cons _ _ => simp at hone
        subst hrest
        show vbytes x = vbytes (Vertex.seq ns)
        have := vbytes_mergeScan M tv htv ns
        rw [hsc] at this
        show vbytes x = vbytesList ns
        rw [← this]
        show vbytes x = vbytes x ++ vbytesList []
        simp [vbytesList]
    · rw [if_neg hone]
      show vbytesList ((mergeScan M (.node tv) ns).map (Vertex.merge tv M)) =
        vbytesList ns
      rw [vbytesList_map_congr, vbytes_mergeScan M tv htv ns]
      intro x hx
      rcases mem_mergeScan hx with h | h
      · exact IH x (by
          have := List.sizeOf_lt_of_mem h
          simp only [Vertex.seq.sizeOf_spec]
          omega)
      · rw [h, merge_node]
  | tree r cs =>
    rw [merge_tree]
    by_cases hM : M = r :: cs
    · rw [if_pos hM]
      show tv = vbytes (Vertex.tree r cs)
      rw [htv, hM]
      show vbytes r ++ vbytesList cs = _
      rfl
    · rw [if_neg hM]
      show vbytes (Vertex.merge tv M r) ++ vbytesList (cs.map (Vertex.merge tv M)) =
        vbytes r ++ vbytesList cs
      rw [IH r (by simp; omega), vbytesList_map_congr]
      intro x hx
      exact IH x (by
        have := List.sizeOf_lt_of_mem hx
        simp only [Vertex.tree.sizeOf_spec]
        omega)

/-- A successful trainer iteration preserves the corpus bytes. -/
theorem vbytes_trainStep {mms : Nat} {oMM : Bool} {g g2 : Vertex}
    (h : trainStep mms oMM g = some g2) : vbytes g2 = vbytes g := by
  unfold trainStep at h
  rcases hsel : selectMerge mms oMM g with _ | M <;> rw [hsel] at h
  · exact Option.noConfusion h
  · change (if M.all isNode = true then some (Vertex.merge (tokenBytes M) M g)
      else none) = some g2 at h
    by_cases hall : M.all isNode
    · rw [if_pos hall] at h
      rcases Option.some_inj.mp h with rfl
      apply vbytes_merge
      rw [tokenBytes, vbytesList_flatten_map]
    · rw [if_neg hall] at h
      exact Option.noConfusion h

/-- C4: for every initial graph, every configuration and every number of
iterations, the byte serialization of the graph after training equals the
byte serialization of the initial graph: rewriting never changes the
corpus bytes. -/
theorem C4_corpus_preservation (mms : Nat) (oMM : Bool) :
    ∀ (k : Nat) (g : Vertex), vbytes (trainRun mms oMM k g) = vbytes g := by
  intro k
  induction k with
  | zero => intro g; rfl
  | succ n IH =>
    intro g
    rw [trainRun]
    rcases hst : trainStep mms oMM g with _ | g2
    · rfl
    · rw [IH g2, vbytes_trainStep hst]

/-!
Claim C1: leaf-count change per iteration.  `scanCount` counts the
replacements one greedy scan performs; `mergeCount` counts all
replacements the rewriter performs on a vertex (scan matches of every
`NodesSequence` it recurses into, plus full-tuple `Tree` matches).  Both
mirror the recursion of `mergeScan` / `Vertex.merge`.
-/

def scanCount (M : List Vertex) : List Vertex → Nat
  | [] => 0
  | x :: xs =>
    if M.length = 0 then 0
    else if (x :: xs).length < M.length then 0
    else if (x :: xs).take M.length = M then
      1 + scanCount M ((x :: xs).drop M.length)
    else
      scanCount M xs
termination_by l => l.length
decreasing_by
  · simp
    rename_i h0 _ _
    omega
  · simp

/-- Number of replacements `Vertex.merge tv M` performs on a vertex. -/
def mergeCount (tv : List Nat) (M : List Vertex) (v : Vertex) : Nat :=
  match v with
  | .node _ => 0
  | .seq ns =>
    let out := mergeScan M (.node tv) ns
    if out.length = 1 then scanCount M ns
    else scanCount M ns + (out.attach.map (fun xa =>
        if _hx : xa.1 = Vertex.node tv then 0
        else mergeCount tv M xa.1)).sum
  | .tree r cs =>
    if M = r :: cs then 1
    else mergeCount tv M r + (cs.attach.map (fun ca => mergeCount tv M ca.1)).sum
termination_by sizeOf v
decreasing_by
  · rcases mem_mergeScan xa.2 with h | h
    · have := List.sizeOf_lt_of_mem h
      simp only [Vertex.seq.sizeOf_spec]
      omega
    · exact absurd h _hx
  · simp; omega
  · have := List.sizeOf_lt_of_mem ca.2
    simp only [Vertex.tree.sizeOf_spec]
    omega

theorem mergeCount_node (tv : List Nat) (M : List Vertex) (b : List Nat) :
    mergeCount tv M (.node b) = 0 := by
  simp [mergeCount]

theorem mergeCount_seq (tv : List Nat) (M : List Vertex) (ns : List Vertex) :
    mergeCount tv M (.seq ns) =
      (if (mergeScan M (.node tv) ns).length = 1 then scanCount M ns
       else scanCount M ns +
         ((mergeScan M (.node tv) ns).map (mergeCount tv M)).sum) := by
  rw [mergeCount]
  by_cases hone : (mergeScan M (.node tv) ns).length = 1
  · rw [if_pos hone, if_pos hone]
  · rw [if_neg hone, if_neg hone]
    congr 1
    refine congrArg List.sum ?_
    calc List.map (fun (xa : {x // x ∈ mergeScan M (.node tv) ns}) =>
            (fun y => if y = Vertex.node tv then 0
                      else mergeCount tv M y) xa.1)
          (mergeScan M (.node tv) ns).attach
        = (mergeScan M (.node tv) ns).map
            (fun y => if y = Vertex.node tv then 0 else mergeCount tv M y) :=
          List.attach_map_val (mergeScan M (.node tv) ns)
            (fun y => if y = Vertex.node tv then 0 else mergeCount tv M y)
      _ = (mergeScan M (.node tv) ns).map (mergeCount tv M) := by
          apply List.map_congr_left
          intro x _
          by_cases hx : x = Vertex.node tv
          · subst hx; rw [if_pos rfl, mergeCount_node]
          · rw [if_neg hx]

theorem mergeCount_tree (tv : List Nat) (M : List Vertex) (r : Vertex)
    (cs : List Vertex) :
    mergeCount tv M (.tree r cs) =
      (if M = r :: cs then 1
       else mergeCount tv M r + (cs.map (mergeCount tv M)).sum) := by
  rw [mergeCount]
  by_cases h : M = r :: cs
  · simp [h]
  · simp only [if_neg h]
    congr 1
    exact congrArg List.sum (List.attach_map_val cs (mergeCount tv M))

theorem leafCountList_append : ∀ l1 l2 : List Vertex,
    leafCountList (l1 ++ l2) = leafCountList l1 + leafCountList l2 := by
  intro l1 l2
  induction l1 with
  | nil => simp [leafCountList]
  | cons x xs IH =>
    show leafCount x + leafCountList (xs ++ l2) = _
    rw [IH]
    show _ = leafCount x + leafCountList xs + leafCountList l2
    omega

/-- An all-`Node` list has one leaf per element. -/
theorem leafCountList_all_node {M : List Vertex} (h : M.all isNode = true) :
    leafCountList M = M.length := by
  induction M with
  | nil => rfl
  | cons x xs IH =>
    rcases List.all_cons .. ▸ h with h2
    have hx := (Bool.and_eq_true ..).mp h2
    cases x with
    | node b =>
      show 1 + leafCountList xs = xs.length + 1
      rw [IH hx.2]
      omega
    | seq _ => exact Bool.noConfusion hx.1
    | tree _ _ => exact Bool.noConfusion hx.1

/-- One greedy scan: output leaves plus `matches · (|M| − 1)` equal the
input leaves, for an all-`Node` merge tuple. -/
theorem leafCount_mergeScan (M : List Vertex) (tv : List Nat)
    (hM : M.all isNode = true) :
    ∀ ns : List Vertex,
      leafCountList (mergeScan M (.node tv) ns) +
        scanCount M ns * (M.length - 1) = leafCountList ns := by
  intro ns
  induction ns using mergeScan.induct M (Vertex.node tv) with
  | case1 => rw [mergeScan, scanCount]; omega
  | case2 y ys h0 => rw [mergeScan, if_pos h0, scanCount, if_pos h0]; omega
  | case3 y ys h0 hlt =>
    rw [mergeScan, if_neg h0, if_pos hlt, scanCount, if_neg h0, if_pos hlt]
    omega
  | case4 y ys h0 hlt heq IH =>
    rw [mergeScan, if_neg h0, if_neg hlt, if_pos heq,
      scanCount, if_neg h0, if_neg hlt, if_pos heq]
    have hsplit : leafCountList (y :: ys) =
        leafCountList ((y :: ys).take M.length) +
          leafCountList ((y :: ys).drop M.length) := by
      rw [← leafCountList_append, List.take_append_drop]
    rw [hsplit, heq, leafCountList_all_node hM]
    show leafCount (Vertex.node tv) +
        leafCountList (mergeScan M (Vertex.node tv) ((y :: ys).drop M.length)) +
        (1 + scanCount M ((y :: ys).drop M.length)) * (M.length - 1) = _
    rw [Nat.add_mul]
    have hm1 : M.length ≠ 0 := h0
    show 1 + _ + (1 * (M.length - 1) + _) = _
    rw [Nat.one_mul]
    omega
  | case5 y ys h0 hlt hne IH =>
    rw [mergeScan, if_neg h0, if_neg hlt, if_neg hne,
      scanCount, if_neg h0, if_neg hlt, if_neg hne]
    show leafCount y + leafCountList (mergeScan M (Vertex.node tv) ys) + _ = _
    show _ = leafCount y + leafCountList ys
    omega

theorem leafCountList_map_of {g : Vertex → Vertex} {cnt : Vertex → Nat}
    {w : Nat} {l : List Vertex}
    (h : ∀ x ∈ l, leafCount (g x) + cnt x * w = leafCount x) :
    leafCountList (l.map g) + (l.map cnt).sum * w = leafCountList l := by
  induction l with
  | nil => simp [leafCountList]
  | cons x xs IH =>
    show leafCount (g x) + leafCountList (xs.map g) +
        (cnt x + (xs.map cnt).sum) * w = leafCount x + leafCountList xs
    rw [Nat.add_mul]
    have h1 := h x (List.mem_cons_self x xs)
    have h2 := IH (fun y hy => h y (List.mem_cons_of_mem x hy))
    omega

/-- Rewriting with an all-`Node` merge tuple: resulting leaves plus
`replacements · (|M| − 1)` equal the original leaves. -/
theorem leafCount_merge (M : List Vertex) (tv : List Nat)
    (hM : M.all isNode = true) :
    ∀ v : Vertex,
      leafCount (Vertex.merge tv M v) +
        mergeCount tv M v * (M.length - 1) = leafCount v := by
  apply vertex_strong_ind
  intro v IH
  cases v with
  | node b => rw [merge_node, mergeCount_node]; omega
  | seq ns =>
    rw [merge_seq, mergeCount_seq]
    by_cases hone : (mergeScan M (.node tv) ns).length = 1
    · rw [if_pos hone, if_pos hone]
      rcases hsc : mergeScan M (.node tv) ns with _ | ⟨x, rest⟩
      · rw [hsc] at hone; simp at hone
      · rw [hsc] at hone
        simp only [List.length_cons] at hone
        have hrest : rest = [] := by
          cases rest with
          | nil => rfl
          | cons _ _ => simp at hone
        subst hrest
        have := leafCount_mergeScan M tv hM ns
        rw [hsc] at this
        show leafCount x + scanCount M ns * (M.length - 1) = leafCountList ns
        have hx : leafCountList [x] = leafCount x := by
          show leafCount x + leafCountList [] = leafCount x
          rfl
        omega
    · rw [if_neg hone, if_neg hone]
      have hscan := leafCount_mergeScan M tv hM ns
      have helem : ∀ x ∈ mergeScan M (.node tv) ns,
          leafCount (Vertex.merge tv M x) +
            mergeCount tv M x * (M.length - 1) = leafCount x := by
        intro x hx
        rcases mem_mergeScan hx with h | h
        · exact IH x (by
            have := List.sizeOf_lt_of_mem h
            simp only [Vertex.seq.sizeOf_spec]
            omega)
        · rw [h, merge_node, mergeCount_node]; omega
      have hmap := leafCountList_map_of helem
      show leafCountList ((mergeScan M (.node tv) ns).map (Vertex.merge tv M)) +
        (scanCount M ns +
          ((mergeScan M (.node tv) ns).map (mergeCount tv M)).sum) *
          (M.length - 1) = leafCountList ns
      rw [Nat.add_mul]
      omega
  | tree r cs =>
    rw [merge_tree, mergeCount_tree]
    by_cases hMrc : M = r :: cs
    · rw [if_pos hMrc, if_pos hMrc]
      have hlen : leafCountList M = M.length := leafCountList_all_node hM
      have h2 : leafCount r + leafCountList cs = leafCountList M := by
        rw [hMrc]; rfl
      have h3 : M.length ≠ 0 := by rw [hMrc]; simp
      show 1 + 1 * (M.length - 1) = leafCount r + leafCountList cs
      rw [h2, hlen]
      omega
    · rw [if_neg hMrc, if_neg hMrc]
      have hr := IH r (by simp; omega)
      have helem : ∀ x ∈ cs,
          leafCount (Vertex.merge tv M x) +
            mergeCount tv M x * (M.length - 1) = leafCount x := by
        intro x hx
        exact IH x (by
          have := List.sizeOf_lt_of_mem hx
          simp only [Vertex.tree.sizeOf_spec]
          omega)
      have hmap := leafCountList_map_of helem
      show leafCount (Vertex.merge tv M r) +
          leafCountList (cs.map (Vertex.merge tv M)) +
          (mergeCount tv M r + (cs.map (mergeCount tv M)).sum) * (M.length - 1) =
        leafCount r + leafCountList cs
      rw [Nat.add_mul]
      omega

/-- With the filter on, any selected candidate is all-`Node`. -/
theorem selectMerge_all_isNode {mms : Nat} {g : Vertex} {M : List Vertex}
    (h : selectMerge mms true g = some M) : M.all isNode = true := by
  unfold selectMerge at h
  rcases Option.map_eq_some'.mp h with ⟨p, hp, hfst⟩
  have hmem := (mem_scoredTally (mostCommon1_mem hp)).1
  rw [streamCands] at hmem
  simp only [if_pos] at hmem
  have := (List.mem_filter.mp hmem).2
  rw [hfst] at this
  exact this

/-- C1 counterexample: on the byte leaves of "aaa" (with the default
`MAX_MERGE_SIZE = 3` and `ONLY_MINIMAL_MERGES = true`), the chosen merge
is `(a, a)` with tallied frequency `f = 2`, but the iteration shrinks the
graph from 3 Token leaves to 2 — a decrease of 1, not
`f · (|M| − 1) = 2`: overlapping occurrences are tallied but only
non-overlapping ones are rewritten. -/
theorem C1_counterexample :
    selectMerge 3 true (utf8 [97, 97, 97]) =
        some [Vertex.node [97], Vertex.node [97]] ∧
      (streamCands 3 true (utf8 [97, 97, 97])).count
          [Vertex.node [97], Vertex.node [97]] = 2 ∧
      trainStep 3 true (utf8 [97, 97, 97]) =
        some (Vertex.seq [Vertex.node [97, 97], Vertex.node [97]]) ∧
      leafCount (utf8 [97, 97, 97]) = 3 ∧
      leafCount (Vertex.seq [Vertex.node [97, 97], Vertex.node [97]]) = 2 ∧
      3 - 2 ≠ 2 * (2 - 1) := by
  refine ⟨by decide, by decide, ?_, by decide, by decide, by decide⟩
  rw [trainStep]
  rw [show selectMerge 3 true (utf8 [97, 97, 97]) =
      some [Vertex.node [97], Vertex.node [97]] from by decide]
  change (if [Vertex.node [97], Vertex.node [97]].all isNode = true
      then some (Vertex.merge (tokenBytes [Vertex.node [97], Vertex.node [97]])
        [Vertex.node [97], Vertex.node [97]] (utf8 [97, 97, 97]))
      else none) =
    some (Vertex.seq [Vertex.node [97, 97], Vertex.node [97]])
  rw [if_pos (by decide)]
  rw [show tokenBytes [Vertex.node [97], Vertex.node [97]] = [97, 97] from by decide]
  rw [show utf8 [97, 97, 97] =
      Vertex.seq [Vertex.node [97], Vertex.node [97], Vertex.node [97]] from by decide]
  rw [merge_seq]
  simp [mergeScan, merge_node]

/-- C1 (amended): after each successful iteration with the filter on, the
Token-leaf count decreases by exactly `r · (|M| − 1)` where `r` is the
number of replacements the rewriter performs (greedy non-overlapping
occurrences, at every nesting level); `r` can differ from the tallied
frequency `f(M)` when occurrences overlap. -/
theorem C1_leaf_decrease_counts_replacements (mms : Nat) (g g2 : Vertex)
    (M : List Vertex) (hsel : selectMerge mms true g = some M)
    (hstep : trainStep mms true g = some g2) :
    leafCount g2 + mergeCount (tokenBytes M) M g * (M.length - 1) =
      leafCount g := by
  have hall := selectMerge_all_isNode hsel
  unfold trainStep at hstep
  rw [hsel] at hstep
  change (if M.all isNode = true
      then some (Vertex.merge (tokenBytes M) M g) else none) = some g2 at hstep
  rw [if_pos hall] at hstep
  rcases Option.some_inj.mp hstep with rfl
  exact leafCount_merge M (tokenBytes M) hall g

/-- C1 witness: the amended theorem applied to the byte leaves of "abab"
(here the two occurrences of `(a, b)` do not overlap, so the decrease is
`2 · 1`). -/
theorem C1_witness :
    leafCount (trainRun 3 true 1 (utf8 [97, 98, 97, 98])) +
      mergeCount (tokenBytes [Vertex.node [97], Vertex.node [98]])
        [Vertex.node [97], Vertex.node [98]] (utf8 [97, 98, 97, 98]) *
        ([Vertex.node [97], Vertex.node [98]].length - 1) =
      leafCount (utf8 [97, 98, 97, 98]) := by
  have h1 : selectMerge 3 true (utf8 [97, 98, 97, 98]) =
      some [Vertex.node [97], Vertex.node [98]] := by decide
  have h2 := C1_leaf_decrease_counts_replacements 3 (utf8 [97, 98, 97, 98])
    (Vertex.merge (tokenBytes [Vertex.node [97], Vertex.node [98]])
      [Vertex.node [97], Vertex.node [98]] (utf8 [97, 98, 97, 98]))
    [Vertex.node [97], Vertex.node [98]] h1 ?_
  · rw [show trainRun 3 true 1 (utf8 [97, 98, 97, 98]) =
        Vertex.merge (tokenBytes [Vertex.node [97], Vertex.node [98]])
          [Vertex.node [97], Vertex.node [98]] (utf8 [97, 98, 97, 98]) from ?_]
    · exact h2
    · rw [trainRun, trainStep, h1]
      change (match (if [Vertex.node [97], Vertex.node [98]].all isNode = true
          then some (Vertex.merge (tokenBytes [Vertex.node [97], Vertex.node [98]])
            [Vertex.node [97], Vertex.node [98]] (utf8 [97, 98, 97, 98]))
          else none : Option Vertex) with
        | none => utf8 [97, 98, 97, 98]
        | some g2 => trainRun 3 true 0 g2) =
        Vertex.merge (tokenBytes [Vertex.node [97], Vertex.node [98]])
          [Vertex.node [97], Vertex.node [98]] (utf8 [97, 98, 97, 98])
      rw [if_pos (by decide)]
      rfl
  · rw [trainStep, h1]
    change (if [Vertex.node [97], Vertex.node [98]].all isNode = true
        then some (Vertex.merge (tokenBytes [Vertex.node [97], Vertex.node [98]])
          [Vertex.node [97], Vertex.node [98]] (utf8 [97, 98, 97, 98]))
        else none) =
      some (Vertex.merge (tokenBytes [Vertex.node [97], Vertex.node [98]])
        [Vertex.node [97], Vertex.node [98]] (utf8 [97, 98, 97, 98]))
    rw [if_pos (by decide)]

/-!
Claim C6: idempotence of rewriting.  The claim fails in general (see the
counterexample below); it holds for well-formed vertices: every Token
nonempty, every Sequence with at least 2 children and every Tree with at
least 1 child — the invariants of §3.4 of the data model, which all
builder outputs satisfy.
-/

mutual

/-- Data-model invariants: nonempty Token values, Sequences of ≥ 2
children, Trees of ≥ 1 child, recursively. -/
def wfV : Vertex → Bool
  | .node b => decide (b ≠ [])
  | .seq ns => decide (2 ≤ ns.length) && wfList ns
  | .tree r cs => decide (1 ≤ cs.length) && wfV r && wfList cs

/-- All vertices of a list are well-formed. -/
def wfList : List Vertex → Bool
  | [] => true
  | v :: vs => wfV v && wfList vs

end

mutual

/-- Whether a vertex contains (or is) a Token leaf with value `tv`. -/
def containsTok (tv : List Nat) : Vertex → Bool
  | .node b => decide (b = tv)
  | .seq ns => containsTokList tv ns
  | .tree r cs => containsTok tv r || containsTokList tv cs

/-- Whether some vertex of a list contains a Token leaf with value `tv`. -/
def containsTokList (tv : List Nat) : List Vertex → Bool
  | [] => false
  | v :: vs => containsTok tv v || containsTokList tv vs

end

theorem wfList_mem : ∀ {l : List Vertex}, wfList l = true → ∀ {x}, x ∈ l → wfV x = true := by
  intro l
  induction l with
  | nil => intro _ x hx; simp at hx
  | cons a as IH =>
    intro h x hx
    have h2 := (Bool.and_eq_true ..).mp h
    rcases List.mem_cons.mp hx with rfl | hx2
    · exact h2.1
    · exact IH h2.2 hx2

theorem containsTokList_iff {tv : List Nat} : ∀ {l : List Vertex},
    containsTokList tv l = true ↔ ∃ x ∈ l, containsTok tv x = true := by
  intro l
  induction l with
  | nil => simp [containsTokList]
  | cons a as IH =>
    show containsTok tv a || containsTokList tv as ↔ _
    rw [Bool.or_eq_true, IH]
    constructor
    · rintro (h | ⟨x, hx, h⟩)
      · exact ⟨a, List.mem_cons_self a as, h⟩
      · exact ⟨x, List.mem_cons_of_mem a hx, h⟩
    · rintro ⟨x, hx, h⟩
      rcases List.mem_cons.mp hx with rfl | hx2
      · exact Or.inl h
      · exact Or.inr ⟨x, hx2, h⟩

/-- Well-formed vertices serialize to at least one byte. -/
theorem vbytes_pos : ∀ v : Vertex, wfV v = true → 1 ≤ (vbytes v).length := by
  apply vertex_strong_ind
  intro v IH hv
  cases v with
  | node b =>
    have : b ≠ [] := of_decide_eq_true hv
    show 1 ≤ b.length
    cases b with
    | nil => exact absurd rfl this
    | cons _ _ => simp
  | seq ns =>
    rcases (Bool.and_eq_true ..).mp hv with ⟨hlen, hall⟩
    have h2 : 2 ≤ ns.length := of_decide_eq_true hlen
    cases ns with
    | nil => simp at h2
    | cons x rest =>
      have hx : 1 ≤ (vbytes x).length :=
        IH x (by simp; omega) (wfList_mem hall (List.mem_cons_self x rest))
      show 1 ≤ (vbytes x ++ vbytesList rest).length
      rw [List.length_append]
      omega
  | tree r cs =>
    rcases (Bool.and_eq_true ..).mp hv with ⟨h1, hall⟩
    rcases (Bool.and_eq_true ..).mp h1 with ⟨_, hr⟩
    have hx : 1 ≤ (vbytes r).length := IH r (by simp; omega) hr
    show 1 ≤ (vbytes r ++ vbytesList cs).length
    rw [List.length_append]
    omega

theorem vbytesList_mem_le {l : List Vertex} {c : Vertex} (hc : c ∈ l) :
    (vbytes c).length ≤ (vbytesList l).length := by
  induction l with
  | nil => simp at hc
  | cons a as IH =>
    show _ ≤ (vbytes a ++ vbytesList as).length
    rw [List.length_append]
    rcases List.mem_cons.mp hc with rfl | hc2
    · omega
    · have := IH hc2; omega

/-- A list of well-formed vertices has at least one byte per element. -/
theorem vbytesList_len_ge : ∀ {l : List Vertex},
    (∀ x ∈ l, wfV x = true) → l.length ≤ (vbytesList l).length := by
  intro l
  induction l with
  | nil => intro _; simp [vbytesList]
  | cons b bs IH =>
    intro hwf
    show (b :: bs).length ≤ (vbytes b ++ vbytesList bs).length
    rw [List.length_append]
    have hb := vbytes_pos b (hwf b (List.mem_cons_self b bs))
    have := IH (fun x hx => hwf x (List.mem_cons_of_mem b hx))
    simp only [List.length_cons]
    omega

/-- Every well-formed vertex of a list contributes at least one byte, so a
member's bytes plus the remaining count bound the total. -/
theorem vbytesList_mem_plus : ∀ {l : List Vertex} {c : Vertex},
    (∀ x ∈ l, wfV x = true) → c ∈ l →
      (vbytes c).length + (l.length - 1) ≤ (vbytesList l).length := by
  intro l
  induction l with
  | nil => intro c _ hc; simp at hc
  | cons a as IH =>
    intro c hwf hc
    show _ ≤ (vbytes a ++ vbytesList as).length
    rw [List.length_append]
    have hlenlist : as.length ≤ (vbytesList as).length :=
      vbytesList_len_ge (fun x hx => hwf x (List.mem_cons_of_mem a hx))
    rcases List.mem_cons.mp hc with rfl | hc2
    · simp only [List.length_cons]
      omega
    · have := IH (fun x hx => hwf x (List.mem_cons_of_mem a hx)) hc2
      have ha := vbytes_pos a (hwf a (List.mem_cons_self a as))
      simp only [List.length_cons]
      omega

/-- In a well-formed vertex, a contained Token leaf with value `tv` is
either the whole vertex or strictly shorter than the vertex's bytes. -/
theorem containsTok_bytes (tv : List Nat) : ∀ v : Vertex, wfV v = true →
    containsTok tv v = true →
      v = Vertex.node tv ∨ tv.length < (vbytes v).length := by
  apply vertex_strong_ind
  intro v IH hv hc
  cases v with
  | node b =>
    have : b = tv := of_decide_eq_true hc
    exact Or.inl (by rw [this])
  | seq ns =>
    rcases (Bool.and_eq_true ..).mp hv with ⟨hlen, hall⟩
    have h2 : 2 ≤ ns.length := of_decide_eq_true hlen
    rcases containsTokList_iff.mp hc with ⟨c, hcm, hcc⟩
    have hwfc : wfV c = true := wfList_mem hall hcm
    have hplus : (vbytes c).length + (ns.length - 1) ≤ (vbytesList ns).length :=
      vbytesList_mem_plus (fun x hx => wfList_mem hall hx) hcm
    refine Or.inr ?_
    show tv.length < (vbytesList ns).length
    rcases IH c (by
        have := List.sizeOf_lt_of_mem hcm
        simp only [Vertex.seq.sizeOf_spec]
        omega) hwfc hcc with rfl | hstrict
    · show tv.length < _
      have : (vbytes (Vertex.node tv)).length = tv.length := rfl
      omega
    · omega
  | tree r cs =>
    rcases (Bool.and_eq_true ..).mp hv with ⟨h1, hall⟩
    rcases (Bool.and_eq_true ..).mp h1 with ⟨hcs1, hr⟩
    have hcs1' : 1 ≤ cs.length := of_decide_eq_true hcs1
    have hrpos := vbytes_pos r hr
    have hcspos : cs.length ≤ (vbytesList cs).length :=
      vbytesList_len_ge (fun x hx => wfList_mem hall hx)
    refine Or.inr ?_
    show tv.length < (vbytes r ++ vbytesList cs).length
    rw [List.length_append]
    rcases Bool.or_eq_true .. |>.mp hc with hcr | hcl
    · rcases IH r (by simp; omega) hr hcr with rfl | hstrict
      · have : (vbytes (Vertex.node tv)).length = tv.length := rfl
        omega
      · omega
    · rcases containsTokList_iff.mp hcl with ⟨c, hcm, hcc⟩
      have hwfc : wfV c = true := wfList_mem hall hcm
      have hle : (vbytes c).length ≤ (vbytesList cs).length := vbytesList_mem_le hcm
      rcases IH c (by
          have := List.sizeOf_lt_of_mem hcm
          simp only [Vertex.tree.sizeOf_spec]
          omega) hwfc hcc with rfl | hstrict
      · have : (vbytes (Vertex.node tv)).length = tv.length := rfl
        omega
      · omega

/-- For a merge tuple of at least 2 well-formed elements, each element's
bytes are strictly shorter than the synthesized token's bytes. -/
theorem merge_elem_bytes_lt {M : List Vertex} (hM2 : 2 ≤ M.length)
    (hMwf : ∀ e ∈ M, wfV e = true) {e : Vertex} (he : e ∈ M) :
    (vbytes e).length < (vbytesList M).length := by
  have := vbytesList_mem_plus hMwf he
  omega

/-- The synthesized token node is never an element of the merge tuple. -/
theorem token_not_mem_merge {M : List Vertex} (hM2 : 2 ≤ M.length)
    (hMwf : ∀ e ∈ M, wfV e = true) :
    Vertex.node (vbytesList M) ∉ M := by
  intro hmem
  have := merge_elem_bytes_lt hM2 hMwf hmem
  have h2 : (vbytes (Vertex.node (vbytesList M))).length = (vbytesList M).length := rfl
  omega

/-- No element of the merge tuple contains the synthesized token leaf. -/
theorem merge_elem_not_containsTok {M : List Vertex} (hM2 : 2 ≤ M.length)
    (hMwf : ∀ e ∈ M, wfV e = true) {e : Vertex} (he : e ∈ M) :
    containsTok (vbytesList M) e = false := by
  by_contra h
  have hc : containsTok (vbytesList M) e = true := by
    cases hcc : containsTok (vbytesList M) e
    · exact absurd hcc h
    · rfl
  rcases containsTok_bytes (vbytesList M) e (hMwf e he) hc with rfl | hstrict
  · exact token_not_mem_merge hM2 hMwf he
  · have := merge_elem_bytes_lt hM2 hMwf he
    omega

/-- A greedy scan either returns its input unchanged or inserted the
token somewhere. -/
theorem mergeScan_eq_or_mem {M : List Vertex} {t : Vertex} :
    ∀ ns : List Vertex, mergeScan M t ns = ns ∨ t ∈ mergeScan M t ns := by
  intro ns
  induction ns using mergeScan.induct M t with
  | case1 => exact Or.inl (by rw [mergeScan])
  | case2 y ys h0 => exact Or.inl (by rw [mergeScan, if_pos h0])
  | case3 y ys h0 hlt => exact Or.inl (by rw [mergeScan, if_neg h0, if_pos hlt])
  | case4 y ys h0 hlt heq IH =>
    refine Or.inr ?_
    rw [mergeScan, if_neg h0, if_neg hlt, if_pos heq]
    exact List.mem_cons_self _ _
  | case5 y ys h0 hlt hne IH =>
    rw [mergeScan, if_neg h0, if_neg hlt, if_neg hne]
    rcases IH with h | h
    · exact Or.inl (by rw [h])
    · exact Or.inr (List.mem_cons_of_mem y h)

/-- Rewriting a well-formed vertex either leaves it unchanged or leaves a
token leaf in the result. -/
theorem merge_eq_or_containsTok (tv : List Nat) (M : List Vertex) :
    ∀ v : Vertex, wfV v = true →
      Vertex.merge tv M v = v ∨
        containsTok tv (Vertex.merge tv M v) = true := by
  apply vertex_strong_ind
  intro v IH hv
  cases v with
  | node b => exact Or.inl (merge_node tv M b)
  | seq ns =>
    rcases (Bool.and_eq_true ..).mp hv with ⟨hlen, hall⟩
    have h2 : 2 ≤ ns.length := of_decide_eq_true hlen
    rw [merge_seq]
    by_cases hone : (mergeScan M (.node tv) ns).length = 1
    · rw [if_pos hone]
      rcases mergeScan_eq_or_mem (M := M) (t := Vertex.node tv) ns with hid | hmem
      · rw [hid] at hone; omega
      · rcases hsc : mergeScan M (.node tv) ns with _ | ⟨x, rest⟩
        · rw [hsc] at hone; simp at hone
        · rw [hsc] at hone hmem
          simp only [List.length_cons] at hone
          have hrest : rest = [] := by
            cases rest with
            | nil => rfl
            | cons _ _ => simp at hone
          subst hrest
          have hx : x = Vertex.node tv := by
            rcases List.mem_singleton.mp hmem with h
            exact h.symm
          refine Or.inr ?_
          show containsTok tv (([x] : List Vertex).headD (.node tv)) = true
          rw [show ([x] : List Vertex).headD (.node tv) = x from rfl, hx]
          show decide (tv = tv) = true
          simp
    · rw [if_neg hone]
      rcases mergeScan_eq_or_mem (M := M) (t := Vertex.node tv) ns with hid | hmem
      · rw [hid]
        by_cases hallc : ∀ c ∈ ns, Vertex.merge tv M c = c
        · refine Or.inl ?_
          congr 1
          calc ns.map (Vertex.merge tv M) = ns.map id :=
              List.map_congr_left (fun x hx => hallc x hx)
            _ = ns := List.map_id ns
        · push_neg at hallc
          rcases hallc with ⟨c, hc, hcne⟩
          rcases IH c (by
              have := List.sizeOf_lt_of_mem hc
              simp only [Vertex.seq.sizeOf_spec]
              omega) (wfList_mem hall hc) with h | h
          · exact absurd h hcne
          · refine Or.inr ?_
            show containsTokList tv (ns.map (Vertex.merge tv M)) = true
            exact containsTokList_iff.mpr
              ⟨Vertex.merge tv M c, List.mem_map_of_mem _ hc, h⟩
      · refine Or.inr ?_
        show containsTokList tv
          ((mergeScan M (.node tv) ns).map (Vertex.merge tv M)) = true
        refine containsTokList_iff.mpr
          ⟨Vertex.merge tv M (Vertex.node tv), List.mem_map_of_mem _ hmem, ?_⟩
        rw [merge_node]
        show decide (tv = tv) = true
        simp
  | tree r cs =>
    rcases (Bool.and_eq_true ..).mp hv with ⟨h1, hall⟩
    rcases (Bool.and_eq_true ..).mp h1 with ⟨_, hr⟩
    rw [merge_tree]
    by_cases hM : M = r :: cs
    · rw [if_pos hM]
      refine Or.inr ?_
      show decide (tv = tv) = true
      simp
    · rw [if_neg hM]
      by_cases hroot : Vertex.merge tv M r = r
      · by_cases hallc : ∀ c ∈ cs, Vertex.merge tv M c = c
        · refine Or.inl ?_
          rw [hroot]
          congr 1
          calc cs.map (Vertex.merge tv M) = cs.map id :=
              List.map_congr_left (fun x hx => hallc x hx)
            _ = cs := List.map_id cs
        · push_neg at hallc
          rcases hallc with ⟨c, hc, hcne⟩
          rcases IH c (by
              have := List.sizeOf_lt_of_mem hc
              simp only [Vertex.tree.sizeOf_spec]
              omega) (wfList_mem hall hc) with h | h
          · exact absurd h hcne
          · refine Or.inr ?_
            show (containsTok tv (Vertex.merge tv M r) ||
              containsTokList tv (cs.map (Vertex.merge tv M))) = true
            rw [Bool.or_eq_true]
            exact Or.inr (containsTokList_iff.mpr
              ⟨Vertex.merge tv M c, List.mem_map_of_mem _ hc, h⟩)
      · rcases IH r (by simp; omega) hr with h | h
        · exact absurd h hroot
        · refine Or.inr ?_
          show (containsTok tv (Vertex.merge tv M r) ||
            containsTokList tv (cs.map (Vertex.merge tv M))) = true
          rw [Bool.or_eq_true]
          exact Or.inl h

/-- No length-`|M|` window of `l` equals `M`. -/
def noWindow (M l : List Vertex) : Prop :=
  ∀ i : Nat, (l.drop i).take M.length ≠ M

/-- A token-free prefix of a scan output is a prefix of the input. -/
theorem mergeScan_take_eq {M : List Vertex} {t : Vertex} :
    ∀ {ns : List Vertex} {k : Nat},
      (∀ e ∈ (mergeScan M t ns).take k, e ≠ t) →
      (mergeScan M t ns).take k = ns.take k := by
  intro ns
  induction ns using mergeScan.induct M t with
  | case1 => intro k h; rw [mergeScan]
  | case2 y ys h0 => intro k h; rw [mergeScan, if_pos h0]
  | case3 y ys h0 hlt => intro k h; rw [mergeScan, if_neg h0, if_pos hlt]
  | case4 y ys h0 hlt heq IH =>
    intro k h
    rw [mergeScan, if_neg h0, if_neg hlt, if_pos heq] at h ⊢
    cases k with
    | zero => simp
    | succ k2 =>
      exfalso
      refine h t ?_ rfl
      rw [List.take_succ_cons]
      exact List.mem_cons_self _ _
  | case5 y ys h0 hlt hne IH =>
    intro k h
    rw [mergeScan, if_neg h0, if_neg hlt, if_neg hne] at h ⊢
    cases k with
    | zero => simp
    | succ k2 =>
      rw [List.take_succ_cons, List.take_succ_cons]
      congr 1
      refine IH ?_
      intro e he
      refine h e ?_
      rw [List.take_succ_cons]
      exact List.mem_cons_of_mem y he

/-- The scan output never contains the merge tuple as a window, provided
the token is not an element of the tuple. -/
theorem noWindow_mergeScan {M : List Vertex} {t : Vertex}
    (hM0 : M ≠ []) (ht : t ∉ M) :
    ∀ ns : List Vertex, noWindow M (mergeScan M t ns) := by
  have hMlen : 1 ≤ M.length := by
    cases M with
    | nil => exact absurd rfl hM0
    | cons _ _ => simp
  intro ns
  induction ns using mergeScan.induct M t with
  | case1 =>
    intro i heq
    rw [mergeScan] at heq
    have := congrArg List.length heq
    simp at this
    omega
  | case2 y ys h0 => exact absurd (List.length_eq_zero.mp h0) hM0
  | case3 y ys h0 hlt =>
    intro i heq
    rw [mergeScan, if_neg h0, if_pos hlt] at heq
    have := congrArg List.length heq
    rw [List.length_take, List.length_drop] at this
    simp only [List.length_cons] at hlt this
    omega
  | case4 y ys h0 hlt heq IH =>
    intro i hw
    rw [mergeScan, if_neg h0, if_neg hlt, if_pos heq] at hw
    cases i with
    | zero =>
      rw [List.drop_zero] at hw
      rcases hM : M with _ | ⟨m0, Mtail⟩
      · exact hM0 hM
      · rw [hM] at hw
        simp only [List.length_cons, List.take_succ_cons] at hw
        have : t = m0 := (List.cons.injEq .. ▸ hw).1
        exact ht (by rw [hM, ← this]; exact List.mem_cons_self _ _)
    | succ i2 =>
      rw [List.drop_succ_cons] at hw
      exact IH i2 hw
  | case5 y ys h0 hlt hne IH =>
    intro i hw
    rw [mergeScan, if_neg h0, if_neg hlt, if_neg hne] at hw
    cases i with
    | zero =>
      rw [List.drop_zero] at hw
      rcases hM : M with _ | ⟨m0, Mtail⟩
      · exact hM0 hM
      · rw [hM] at hw
        simp only [List.length_cons, List.take_succ_cons] at hw
        have hy : y = m0 := (List.cons.injEq .. ▸ hw).1
        have htail0 : (mergeScan (m0 :: Mtail) t ys).take Mtail.length = Mtail :=
          (List.cons.injEq .. ▸ hw).2
        have htail : (mergeScan M t ys).take Mtail.length = Mtail := by
          rw [hM]; exact htail0
        have hnotok : ∀ e ∈ (mergeScan M t ys).take Mtail.length, e ≠ t := by
          intro e he het
          rw [htail] at he
          exact ht (by rw [hM]; exact List.mem_cons_of_mem m0 (het ▸ he))
        have := mergeScan_take_eq (M := M) (t := t) hnotok
        rw [this] at htail
        refine hne ?_
        rw [hM]
        simp only [List.length_cons, List.take_succ_cons]
        rw [hy, htail]
    | succ i2 =>
      rw [List.drop_succ_cons] at hw
      exact IH i2 hw

/-- A scan over a list with no matching window is the identity. -/
theorem mergeScan_eq_of_noWindow {M : List Vertex} {t : Vertex}
    (hM0 : M ≠ []) :
    ∀ ns : List Vertex, noWindow M ns → mergeScan M t ns = ns := by
  intro ns
  induction ns using mergeScan.induct M t with
  | case1 => intro _; rw [mergeScan]
  | case2 y ys h0 => intro _; exact absurd (List.length_eq_zero.mp h0) hM0
  | case3 y ys h0 hlt => intro _; rw [mergeScan, if_neg h0, if_pos hlt]
  | case4 y ys h0 hlt heq IH =>
    intro hnw
    exfalso
    exact hnw 0 (by rw [List.drop_zero]; exact heq)
  | case5 y ys h0 hlt hne IH =>
    intro hnw
    rw [mergeScan, if_neg h0, if_neg hlt, if_neg hne]
    congr 1
    refine IH ?_
    intro i
    have := hnw (i + 1)
    rw [List.drop_succ_cons] at this
    exact this

/-- If mapping the rewriter over a list of scan-output elements yields a
list of merge-tuple elements, nothing was rewritten: the lists agree. -/
theorem eq_of_map_merge_mem {M : List Vertex} (hM2 : 2 ≤ M.length)
    (hMwf : ∀ e ∈ M, wfV e = true) :
    ∀ (W K : List Vertex),
      (∀ y ∈ W, wfV y = true ∨ y = Vertex.node (vbytesList M)) →
      (∀ e ∈ K, e ∈ M) →
      K = W.map (Vertex.merge (vbytesList M) M) → K = W := by
  intro W
  induction W with
  | nil => intro K _ _ hK; simpa using hK
  | cons y W2 IH =>
    intro K hWy hKM hK
    rw [List.map_cons] at hK
    subst hK
    have hy0 : Vertex.merge (vbytesList M) M y ∈ M :=
      hKM _ (List.mem_cons_self _ _)
    have hhead : Vertex.merge (vbytesList M) M y = y := by
      rcases hWy y (List.mem_cons_self y W2) with hwfy | rfl
      · rcases merge_eq_or_containsTok (vbytesList M) M y hwfy with h | h
        · exact h
        · exfalso
          have := merge_elem_not_containsTok hM2 hMwf hy0
          rw [this] at h
          exact Bool.noConfusion h
      · rw [merge_node]
    have htail := IH (W2.map (Vertex.merge (vbytesList M) M))
      (fun x hx => hWy x (List.mem_cons_of_mem y hx))
      (fun e he => hKM e (List.mem_cons_of_mem _ he)) rfl
    rw [hhead, htail]

theorem sum_map_zero {f : Vertex → Nat} : ∀ {l : List Vertex},
    (l.map f).sum = 0 → ∀ x ∈ l, f x = 0 := by
  intro l
  induction l with
  | nil => intro _ x hx; simp at hx
  | cons a as IH =>
    intro h x hx
    rw [List.map_cons, List.sum_cons] at h
    rcases List.mem_cons.mp hx with rfl | hx2
    · omega
    · exact IH (by omega) x hx2

/-- A scan that made no replacement is the identity. -/
theorem mergeScan_eq_of_count_zero {M : List Vertex} {t : Vertex} :
    ∀ ns : List Vertex, scanCount M ns = 0 → mergeScan M t ns = ns := by
  intro ns
  induction ns using mergeScan.induct M t with
  | case1 => intro _; rw [mergeScan]
  | case2 y ys h0 => intro _; rw [mergeScan, if_pos h0]
  | case3 y ys h0 hlt => intro _; rw [mergeScan, if_neg h0, if_pos hlt]
  | case4 y ys h0 hlt heq IH =>
    intro hc
    rw [scanCount, if_neg h0, if_neg hlt, if_pos heq] at hc
    omega
  | case5 y ys h0 hlt hne IH =>
    intro hc
    rw [scanCount, if_neg h0, if_neg hlt, if_neg hne] at hc
    rw [mergeScan, if_neg h0, if_neg hlt, if_neg hne, IH hc]

/-- A rewrite that performs no replacement returns an equal vertex, for a
well-formed input. -/
theorem merge_eq_of_count_zero (tv : List Nat) (M : List Vertex) :
    ∀ v : Vertex, wfV v = true → mergeCount tv M v = 0 →
      Vertex.merge tv M v = v := by
  apply vertex_strong_ind
  intro v IH hv hc
  cases v with
  | node b => exact merge_node tv M b
  | seq ns =>
    rcases (Bool.and_eq_true ..).mp hv with ⟨hlen, hall⟩
    have h2 : 2 ≤ ns.length := of_decide_eq_true hlen
    rw [mergeCount_seq] at hc
    rw [merge_seq]
    by_cases hone : (mergeScan M (.node tv) ns).length = 1
    · exfalso
      rw [if_pos hone] at hc
      have hid := mergeScan_eq_of_count_zero (M := M) (t := Vertex.node tv) ns hc
      rw [hid] at hone
      omega
    · rw [if_neg hone] at hc ⊢
      have hscan0 : scanCount M ns = 0 := by omega
      have hsum :
          (((mergeScan M (.node tv) ns).map (mergeCount tv M))).sum = 0 := by
        omega
      have hid := mergeScan_eq_of_count_zero (M := M) (t := Vertex.node tv) ns hscan0
      rw [hid] at hsum ⊢
      have hzero := sum_map_zero hsum
      congr 1
      calc ns.map (Vertex.merge tv M) = ns.map id := by
            refine List.map_congr_left ?_
            intro x hx
            exact IH x (by
              have := List.sizeOf_lt_of_mem hx
              simp only [Vertex.seq.sizeOf_spec]
              omega) (wfList_mem hall hx) (hzero x hx)
        _ = ns := List.map_id ns
  | tree r cs =>
    rcases (Bool.and_eq_true ..).mp hv with ⟨h1, hall⟩
    rcases (Bool.and_eq_true ..).mp h1 with ⟨_, hr⟩
    rw [mergeCount_tree] at hc
    rw [merge_tree]
    by_cases hM : M = r :: cs
    · rw [if_pos hM] at hc
      omega
    · rw [if_neg hM] at hc ⊢
      have hr0 : mergeCount tv M r = 0 := by omega
      have hsum : ((cs.map (mergeCount tv M))).sum = 0 := by omega
      have hzero := sum_map_zero hsum
      rw [IH r (by simp; omega) hr hr0]
      congr 1
      calc cs.map (Vertex.merge tv M) = cs.map id := by
            refine List.map_congr_left ?_
            intro x hx
            exact IH x (by
              have := List.sizeOf_lt_of_mem hx
              simp only [Vertex.tree.sizeOf_spec]
              omega) (wfList_mem hall hx) (hzero x hx)
        _ = cs := List.map_id cs

/-- Idempotence of the rewriter on well-formed vertices, for a merge tuple
of at least two well-formed elements and the token synthesized from it. -/
theorem merge_idem {M : List Vertex} (hM2 : 2 ≤ M.length)
    (hMwf : ∀ e ∈ M, wfV e = true) :
    ∀ v : Vertex, wfV v = true →
      Vertex.merge (vbytesList M) M (Vertex.merge (vbytesList M) M v) =
        Vertex.merge (vbytesList M) M v := by
  have hM0 : M ≠ [] := by
    intro h; rw [h] at hM2; simp at hM2
  have htnm : Vertex.node (vbytesList M) ∉ M := token_not_mem_merge hM2 hMwf
  apply vertex_strong_ind
  intro v IH hv
  cases v with
  | node b => rw [merge_node, merge_node]
  | seq ns =>
    rcases (Bool.and_eq_true ..).mp hv with ⟨hlen, hall⟩
    have h2 : 2 ≤ ns.length := of_decide_eq_true hlen
    rw [merge_seq]
    by_cases hone : (mergeScan M (.node (vbytesList M)) ns).length = 1
    · rw [if_pos hone]
      rcases mergeScan_eq_or_mem (M := M) (t := Vertex.node (vbytesList M)) ns
        with hid | hmem
      · rw [hid] at hone; omega
      · rcases hsc : mergeScan M (.node (vbytesList M)) ns with _ | ⟨x, rest⟩
        · rw [hsc] at hone; simp at hone
        · rw [hsc] at hone hmem
          simp only [List.length_cons] at hone
          have hrest : rest = [] := by
            cases rest with
            | nil => rfl
            | cons _ _ => simp at hone
          subst hrest
          have hx : x = Vertex.node (vbytesList M) :=
            (List.mem_singleton.mp hmem).symm
          rw [show ([x] : List Vertex).headD (.node (vbytesList M)) = x from rfl,
            hx, merge_node]
    · rw [if_neg hone]
      have hnwout : noWindow M (mergeScan M (.node (vbytesList M)) ns) :=
        noWindow_mergeScan hM0 htnm ns
      have hmemout : ∀ y ∈ mergeScan M (.node (vbytesList M)) ns,
          y ∈ ns ∨ y = Vertex.node (vbytesList M) :=
        fun y hy => mem_mergeScan hy
      have hnw : noWindow M
          ((mergeScan M (.node (vbytesList M)) ns).map
            (Vertex.merge (vbytesList M) M)) := by
        intro i heq
        rw [← List.map_drop, ← List.map_take] at heq
        have hW := eq_of_map_merge_mem hM2 hMwf
          (((mergeScan M (.node (vbytesList M)) ns).drop i).take M.length) M
          (fun y hy => by
            have hyo : y ∈ mergeScan M (.node (vbytesList M)) ns :=
              List.mem_of_mem_drop (List.mem_of_mem_take hy)
            rcases hmemout y hyo with h | h
            · exact Or.inl (wfList_mem hall h)
            · exact Or.inr h)
          (fun e he => he) heq.symm
        exact hnwout i hW.symm
      have hscan2 := mergeScan_eq_of_noWindow (t := Vertex.node (vbytesList M))
        hM0 _ hnw
      rw [merge_seq, hscan2]
      rw [if_neg (by rw [List.length_map]; exact hone)]
      congr 1
      rw [List.map_map]
      refine List.map_congr_left ?_
      intro y hy
      show Vertex.merge (vbytesList M) M (Vertex.merge (vbytesList M) M y) =
        Vertex.merge (vbytesList M) M y
      rcases hmemout y hy with h | h
      · exact IH y (by
          have := List.sizeOf_lt_of_mem h
          simp only [Vertex.seq.sizeOf_spec]
          omega) (wfList_mem hall h)
      · rw [h, merge_node, merge_node]
  | tree r cs =>
    rcases (Bool.and_eq_true ..).mp hv with ⟨h1, hall⟩
    rcases (Bool.and_eq_true ..).mp h1 with ⟨_, hr⟩
    rw [merge_tree]
    by_cases hM : M = r :: cs
    · rw [if_pos hM, merge_node]
    · rw [if_neg hM, merge_tree]
      have hne2 : M ≠ Vertex.merge (vbytesList M) M r ::
          cs.map (Vertex.merge (vbytesList M) M) := by
        intro heq
        have hmap : M = (r :: cs).map (Vertex.merge (vbytesList M) M) := by
          rw [List.map_cons]; exact heq
        have hW := eq_of_map_merge_mem hM2 hMwf (r :: cs) M
          (fun y hy => Or.inl (by
            rcases List.mem_cons.mp hy with rfl | hy2
            · exact hr
            · exact wfList_mem hall hy2))
          (fun e he => he) hmap
        exact hM hW
      rw [if_neg hne2]
      congr 1
      · exact IH r (by simp; omega) hr
      · rw [List.map_map]
        refine List.map_congr_left ?_
        intro y hy
        show Vertex.merge (vbytesList M) M (Vertex.merge (vbytesList M) M y) =
          Vertex.merge (vbytesList M) M y
        exact IH y (by
          have := List.sizeOf_lt_of_mem hy
          simp only [Vertex.tree.sizeOf_spec]
          omega) (wfList_mem hall hy)

/-- C6 counterexample: with an empty-byte Token in the merge tuple, the
rewrite is not idempotent.  Take `M = (Node(b""), Node(b"a"))`, whose
token has bytes `b"a"`, and the vertex
`Seq(Node(b""), Node(b""), Node(b"a"))`: the first rewrite yields
`Seq(Node(b""), Node(b"a"))` and the second collapses it to
`Node(b"a")`, a different vertex. -/
theorem C6_counterexample :
    ([97] : List Nat) = vbytesList [Vertex.node [], Vertex.node [97]] ∧
      Vertex.merge [97] [Vertex.node [], Vertex.node [97]]
          (Vertex.merge [97] [Vertex.node [], Vertex.node [97]]
            (Vertex.seq [Vertex.node [], Vertex.node [], Vertex.node [97]])) ≠
        Vertex.merge [97] [Vertex.node [], Vertex.node [97]]
          (Vertex.seq [Vertex.node [], Vertex.node [], Vertex.node [97]]) := by
  have h1 : Vertex.merge [97] [Vertex.node [], Vertex.node [97]]
      (Vertex.seq [Vertex.node [], Vertex.node [], Vertex.node [97]]) =
      Vertex.seq [Vertex.node [], Vertex.node [97]] := by
    rw [merge_seq]
    simp [mergeScan, merge_node]
  have h2 : Vertex.merge [97] [Vertex.node [], Vertex.node [97]]
      (Vertex.seq [Vertex.node [], Vertex.node [97]]) =
      Vertex.node [97] := by
    rw [merge_seq]
    simp [mergeScan]
  refine ⟨by decide, ?_⟩
  rw [h1, h2]
  decide

/-- C6 (amended): rewriting is idempotent on well-formed data — every
Token nonempty, every Sequence with ≥ 2 children, every Tree with ≥ 1
child (the data-model invariants, which all builder outputs satisfy) —
for every merge tuple of at least two well-formed elements and the token
whose bytes are the concatenation of the tuple's bytes; moreover a rewrite
that performs no replacement returns a vertex equal to the input. -/
theorem C6_rewrite_idempotent_on_wf (tv : List Nat) (M : List Vertex)
    (htv : tv = vbytesList M) (hM2 : 2 ≤ M.length)
    (hMwf : ∀ e ∈ M, wfV e = true) (v : Vertex) (hv : wfV v = true) :
    Vertex.merge tv M (Vertex.merge tv M v) = Vertex.merge tv M v ∧
      (mergeCount tv M v = 0 → Vertex.merge tv M v = v) := by
  constructor
  · subst htv
    exact merge_idem hM2 hMwf v hv
  · exact merge_eq_of_count_zero tv M v hv

/-- C6 witness: the amended theorem at the byte leaves of "aba" with the
merge `(a, b)`. -/
theorem C6_witness :
    Vertex.merge [97, 98] [Vertex.node [97], Vertex.node [98]]
        (Vertex.merge [97, 98] [Vertex.node [97], Vertex.node [98]]
          (Vertex.seq [Vertex.node [97], Vertex.node [98], Vertex.node [97]])) =
      Vertex.merge [97, 98] [Vertex.node [97], Vertex.node [98]]
        (Vertex.seq [Vertex.node [97], Vertex.node [98], Vertex.node [97]]) ∧
      (mergeCount [97, 98] [Vertex.node [97], Vertex.node [98]]
          (Vertex.seq [Vertex.node [97], Vertex.node [98], Vertex.node [97]]) = 0 →
        Vertex.merge [97, 98] [Vertex.node [97], Vertex.node [98]]
          (Vertex.seq [Vertex.node [97], Vertex.node [98], Vertex.node [97]]) =
          Vertex.seq [Vertex.node [97], Vertex.node [98], Vertex.node [97]]) :=
  C6_rewrite_idempotent_on_wf [97, 98] [Vertex.node [97], Vertex.node [98]]
    (by decide) (by decide) (by decide)
    (Vertex.seq [Vertex.node [97], Vertex.node [98], Vertex.node [97]])
    (by decide)

/-!
Claim C9: the pretokenizer (`complex_tokenization/graphs/words.py`).

`pretokenize` runs `regex.finditer` with the GPT-style pattern

  `[^\r\n\p{L}\p{N}]?[\p{Lu}\p{Lt}\p{Lm}\p{Lo}\p{M}]*[\p{Ll}\p{Lm}\p{Lo}\p{M}]+(?i:'s|'t|'re|'ve|'m|'ll|'d)?`
  `|[^\r\n\p{L}\p{N}]?[\p{Lu}\p{Lt}\p{Lm}\p{Lo}\p{M}]+[\p{Ll}\p{Lm}\p{Lo}\p{M}]*(?i:'s|'t|'re|'ve|'m|'ll|'d)?`
  `|\p{N}{1,3}| ?[^\s\p{L}\p{N}]+[\r\n/]*|\s*[\r\n]+|\s+(?!\S)|\s+`

and collects the matched pieces in text order.  The embedding models a
matcher as a function from the input suffix to the list of possible
remainders in backtracking preference order (alternation in written
order, greedy quantifiers longest-first); the overall match at a position
is the head of that list, exactly the leftmost-first semantics of the
regex engine.  Unicode character classes are abstract boolean
classification functions, passed as a `CharClasses` record; code points
`\r \n / ' ` (space) are concrete.
-/

structure CharClasses : Type where
  isSpace : Char → Bool
  isL : Char → Bool
  isNum : Char → Bool
  isLu : Char → Bool
  isLt : Char → Bool
  isLm : Char → Bool
  isLo : Char → Bool
  isLl : Char → Bool
  isM : Char → Bool

/-- A matcher: the possible remainders after consuming a match of the
sub-pattern, in backtracking preference order. -/
def Mx : Type := List Char → List (List Char)

/-- Concatenation of two sub-patterns. -/
def seqMx (p q : Mx) : Mx := fun s => (p s).flatMap q

/-- Ordered alternation. -/
def altMx (p q : Mx) : Mx := fun s => p s ++ q s

/-- A single character of a class. -/
def charCl (f : Char → Bool) : Mx := fun s =>
  match s with
  | [] => []
  | c :: r => if f c then [r] else []

/-- Length of the maximal class run at the head of the input. -/
def runLen (f : Char → Bool) (s : List Char) : Nat := (s.takeWhile f).length

/-- Greedy `X*` for a character class: consume `k` characters for
`k = run, …, 0`. -/
def starCl (f : Char → Bool) : Mx := fun s =>
  ((List.range (runLen f s + 1)).reverse).map (fun k => s.drop k)

/-- Greedy `X+` for a character class: consume `k` characters for
`k = run, …, 1`. -/
def plusCl (f : Char → Bool) : Mx := fun s =>
  ((List.range' 1 (runLen f s)).reverse).map (fun k => s.drop k)

/-- Greedy `X{lo,hi}` for a character class. -/
def repCl (f : Char → Bool) (lo hi : Nat) : Mx := fun s =>
  ((List.range' lo (min hi (runLen f s) + 1 - lo)).reverse).map (fun k => s.drop k)

/-- Greedy `X?`: consume a match of `X` first, else nothing. -/
def optMx (p : Mx) : Mx := fun s => p s ++ [s]

/-- Negative lookahead `(?!C)` for a single-character class `C`: succeeds
without consuming when no `C`-character follows. -/
def lookNotCl (f : Char → Bool) : Mx := fun s =>
  match s with
  | [] => [[]]
  | c :: r => if f c then [] else [c :: r]

/-- Case-insensitive literal match (used for `(?i:'s|'t|…)`). -/
def matchCI : List Char → List Char → Bool
  | [], _ => true
  | _ :: _, [] => false
  | p :: ps, c :: cs => (c.toLower == p.toLower) && matchCI ps cs

/-- A case-insensitive literal sub-pattern. -/
def litCI (pat : List Char) : Mx := fun s =>
  if matchCI pat s then [s.drop pat.length] else []

def apoChar : Char := Char.ofNat 39
def crChar : Char := Char.ofNat 13
def lfChar : Char := Char.ofNat 10
def slashChar : Char := Char.ofNat 47
def spaceChar : Char := Char.ofNat 32

/-- `(?i:'s|'t|'re|'ve|'m|'ll|'d)`. -/
def contrMx : Mx :=
  altMx (litCI [apoChar, 's'])
    (altMx (litCI [apoChar, 't'])
      (altMx (litCI [apoChar, 'r', 'e'])
        (altMx (litCI [apoChar, 'v', 'e'])
          (altMx (litCI [apoChar, 'm'])
            (altMx (litCI [apoChar, 'l', 'l']) (litCI [apoChar, 'd']))))))

/-- `[\p{Lu}\p{Lt}\p{Lm}\p{Lo}\p{M}]`. -/
def classA (K : CharClasses) (c : Char) : Bool :=
  K.isLu c || K.isLt c || K.isLm c || K.isLo c || K.isM c

/-- `[\p{Ll}\p{Lm}\p{Lo}\p{M}]`. -/
def classB (K : CharClasses) (c : Char) : Bool :=
  K.isLl c || K.isLm c || K.isLo c || K.isM c

/-- `[^\r\n\p{L}\p{N}]`. -/
def classLead (K : CharClasses) (c : Char) : Bool :=
  !(c == crChar || c == lfChar || K.isL c || K.isNum c)

/-- `[^\s\p{L}\p{N}]`. -/
def classPunct (K : CharClasses) (c : Char) : Bool :=
  !(K.isSpace c || K.isL c || K.isNum c)

/-- `[\r\n/]`. -/
def classRNS (c : Char) : Bool := c == crChar || c == lfChar || c == slashChar

/-- `[\r\n]`. -/
def classRN (c : Char) : Bool := c == crChar || c == lfChar

/-- First alternative: lowercase-led word with optional lead byte and
optional contraction. -/
def branch1 (K : CharClasses) : Mx :=
  seqMx (optMx (charCl (classLead K)))
    (seqMx (starCl (classA K)) (seqMx (plusCl (classB K)) (optMx contrMx)))

/-- Second alternative: uppercase-led word. -/
def branch2 (K : CharClasses) : Mx :=
  seqMx (optMx (charCl (classLead K)))
    (seqMx (plusCl (classA K)) (seqMx (starCl (classB K)) (optMx contrMx)))

/-- Third alternative: `\p{N}{1,3}`. -/
def branch3 (K : CharClasses) : Mx := repCl K.isNum 1 3

/-- Fourth alternative: ` ?[^\s\p{L}\p{N}]+[\r\n/]*`. -/
def branch4 (K : CharClasses) : Mx :=
  seqMx (optMx (charCl (fun c => c == spaceChar)))
    (seqMx (plusCl (classPunct K)) (starCl classRNS))

/-- Fifth alternative: `\s*[\r\n]+`. -/
def branch5 (K : CharClasses) : Mx :=
  seqMx (starCl K.isSpace) (plusCl classRN)

/-- Sixth alternative: `\s+(?!\S)`. -/
def branch6 (K : CharClasses) : Mx :=
  seqMx (plusCl K.isSpace) (lookNotCl (fun c => !(K.isSpace c)))

/-- Seventh alternative: `\s+`. -/
def branch7 (K : CharClasses) : Mx := plusCl K.isSpace

/-- The full pattern, alternatives in written order. -/
def patternMx (K : CharClasses) : Mx :=
  altMx (branch1 K)
    (altMx (branch2 K)
      (altMx (branch3 K)
        (altMx (branch4 K)
          (altMx (branch5 K) (altMx (branch6 K) (branch7 K))))))

/-- `pretokenize`: `regex.finditer` collecting `match.group(0)` pieces in
text order.  At each position the leftmost-first match is the head of the
pattern's remainder list; on a match the piece up to the remainder is
emitted and scanning resumes at the remainder; with no match (or a
zero-width one) the scanner advances one character. -/
def findPieces (K : CharClasses) (s : List Char) : List (List Char) :=
  match s with
  | [] => []
  | c :: rest =>
    match (patternMx K (c :: rest)).head? with
    | some r =>
      if _h : r.length < (c :: rest).length then
        ((c :: rest).take ((c :: rest).length - r.length)) :: findPieces K r
      else findPieces K rest
    | none => findPieces K rest
termination_by s.length
decreasing_by
  · omega
  · simp

/-- Every remainder a matcher produces is a suffix of its input. -/
def SuffixyMx (p : Mx) : Prop := ∀ s r, r ∈ p s → List.IsSuffix r s

/-- Every remainder a matcher produces is strictly shorter than its
input (the sub-pattern always consumes). -/
def ConsumeMx (p : Mx) : Prop := ∀ s r, r ∈ p s → r.length < s.length

theorem suffixy_charCl (f : Char → Bool) : SuffixyMx (charCl f) := by
  intro s r hr
  cases s with
  | nil => simp [charCl] at hr
  | cons c cs =>
    rw [charCl] at hr
    by_cases hf : f c
    · rw [if_pos hf] at hr
      have hrc := List.mem_singleton.mp hr
      rw [hrc]
      exact List.tail_suffix (c :: cs)
    · rw [if_neg hf] at hr
      simp at hr

theorem suffixy_starCl (f : Char → Bool) : SuffixyMx (starCl f) := by
  intro s r hr
  rcases List.mem_map.mp hr with ⟨k, _, rfl⟩
  exact List.drop_suffix k s

theorem suffixy_plusCl (f : Char → Bool) : SuffixyMx (plusCl f) := by
  intro s r hr
  rcases List.mem_map.mp hr with ⟨k, _, rfl⟩
  exact List.drop_suffix k s

theorem suffixy_repCl (f : Char → Bool) (lo hi : Nat) :
    SuffixyMx (repCl f lo hi) := by
  intro s r hr
  rcases List.mem_map.mp hr with ⟨k, _, rfl⟩
  exact List.drop_suffix k s

theorem suffixy_lookNotCl (f : Char → Bool) : SuffixyMx (lookNotCl f) := by
  intro s r hr
  cases s with
  | nil =>
    rcases List.mem_singleton.mp hr with rfl
    exact List.suffix_refl []
  | cons c cs =>
    rw [lookNotCl] at hr
    by_cases hf : f c
    · rw [if_pos hf] at hr; simp at hr
    · rw [if_neg hf] at hr
      rcases List.mem_singleton.mp hr with rfl
      exact List.suffix_refl _

theorem suffixy_litCI (pat : List Char) : SuffixyMx (litCI pat) := by
  intro s r hr
  rw [litCI] at hr
  by_cases hm : matchCI pat s
  · rw [if_pos hm] at hr
    rcases List.mem_singleton.mp hr with rfl
    exact List.drop_suffix pat.length s
  · rw [if_neg hm] at hr; simp at hr

theorem suffixy_optMx {p : Mx} (hp : SuffixyMx p) : SuffixyMx (optMx p) := by
  intro s r hr
  rcases List.mem_append.mp hr with h | h
  · exact hp s r h
  · rcases List.mem_singleton.mp h with rfl
    exact List.suffix_refl _

theorem suffixy_altMx {p q : Mx} (hp : SuffixyMx p) (hq : SuffixyMx q) :
    SuffixyMx (altMx p q) := by
  intro s r hr
  rcases List.mem_append.mp hr with h | h
  · exact hp s r h
  · exact hq s r h

theorem suffixy_seqMx {p q : Mx} (hp : SuffixyMx p) (hq : SuffixyMx q) :
    SuffixyMx (seqMx p q) := by
  intro s r hr
  rcases List.mem_flatMap.mp hr with ⟨mid, hmid, hr2⟩
  exact (hq mid r hr2).trans (hp s mid hmid)

theorem suffixy_contrMx : SuffixyMx contrMx :=
  suffixy_altMx (suffixy_litCI _)
    (suffixy_altMx (suffixy_litCI _)
      (suffixy_altMx (suffixy_litCI _)
        (suffixy_altMx (suffixy_litCI _)
          (suffixy_altMx (suffixy_litCI _)
            (suffixy_altMx (suffixy_litCI _) (suffixy_litCI _))))))

theorem suffixy_patternMx (K : CharClasses) : SuffixyMx (patternMx K) := by
  unfold patternMx branch1 branch2 branch3 branch4 branch5 branch6 branch7
  refine suffixy_altMx ?_ (suffixy_altMx ?_ (suffixy_altMx ?_
    (suffixy_altMx ?_ (suffixy_altMx ?_ (suffixy_altMx ?_ ?_)))))
  · exact suffixy_seqMx (suffixy_optMx (suffixy_charCl _))
      (suffixy_seqMx (suffixy_starCl _)
        (suffixy_seqMx (suffixy_plusCl _) (suffixy_optMx suffixy_contrMx)))
  · exact suffixy_seqMx (suffixy_optMx (suffixy_charCl _))
      (suffixy_seqMx (suffixy_plusCl _)
        (suffixy_seqMx (suffixy_starCl _) (suffixy_optMx suffixy_contrMx)))
  · exact suffixy_repCl _ 1 3
  · exact suffixy_seqMx (suffixy_optMx (suffixy_charCl _))
      (suffixy_seqMx (suffixy_plusCl _) (suffixy_starCl _))
  · exact suffixy_seqMx (suffixy_starCl _) (suffixy_plusCl _)
  · exact suffixy_seqMx (suffixy_plusCl _) (suffixy_lookNotCl _)
  · exact suffixy_plusCl _

theorem consume_plusCl (f : Char → Bool) : ConsumeMx (plusCl f) := by
  intro s r hr
  rcases List.mem_map.mp hr with ⟨k, hk, rfl⟩
  rcases List.mem_range'.mp (List.mem_reverse.mp hk) with ⟨i, hi, hki⟩
  have hkrun : k ≤ runLen f s := by omega
  have hrun : runLen f s ≤ s.length := by
    rw [runLen]
    exact (List.takeWhile_prefix f).length_le
  rw [List.length_drop]
  omega

theorem consume_repCl (f : Char → Bool) (hi : Nat) : ConsumeMx (repCl f 1 hi) := by
  intro s r hr
  rcases List.mem_map.mp hr with ⟨k, hk, rfl⟩
  rcases List.mem_range'.mp (List.mem_reverse.mp hk) with ⟨i, hin, hki⟩
  have hkrun : k ≤ min hi (runLen f s) := by omega
  have hrun : runLen f s ≤ s.length := by
    rw [runLen]
    exact (List.takeWhile_prefix f).length_le
  rw [List.length_drop]
  omega

/-- A consuming part makes a concatenation consuming when the other part
never grows the remainder. -/
theorem consume_seqMx_left {p q : Mx} (hp : ConsumeMx p) (hq : SuffixyMx q) :
    ConsumeMx (seqMx p q) := by
  intro s r hr
  rcases List.mem_flatMap.mp hr with ⟨mid, hmid, hr2⟩
  have h1 := hp s mid hmid
  have h2 := (hq mid r hr2).length_le
  omega

theorem consume_seqMx_right {p q : Mx} (hp : SuffixyMx p) (hq : ConsumeMx q) :
    ConsumeMx (seqMx p q) := by
  intro s r hr
  rcases List.mem_flatMap.mp hr with ⟨mid, hmid, hr2⟩
  have h1 := (hp s mid hmid).length_le
  have h2 := hq mid r hr2
  omega

theorem consume_altMx {p q : Mx} (hp : ConsumeMx p) (hq : ConsumeMx q) :
    ConsumeMx (altMx p q) := by
  intro s r hr
  rcases List.mem_append.mp hr with h | h
  · exact hp s r h
  · exact hq s r h

theorem consume_patternMx (K : CharClasses) : ConsumeMx (patternMx K) := by
  unfold patternMx branch1 branch2 branch3 branch4 branch5 branch6 branch7
  refine consume_altMx ?_ (consume_altMx ?_ (consume_altMx ?_
    (consume_altMx ?_ (consume_altMx ?_ (consume_altMx ?_ ?_)))))
  · exact consume_seqMx_right (suffixy_optMx (suffixy_charCl _))
      (consume_seqMx_right (suffixy_starCl _)
        (consume_seqMx_left (consume_plusCl _) (suffixy_optMx suffixy_contrMx)))
  · exact consume_seqMx_right (suffixy_optMx (suffixy_charCl _))
      (consume_seqMx_left (consume_plusCl _)
        (suffixy_seqMx (suffixy_starCl _) (suffixy_optMx suffixy_contrMx)))
  · exact consume_repCl _ 3
  · exact consume_seqMx_right (suffixy_optMx (suffixy_charCl _))
      (consume_seqMx_left (consume_plusCl _) (suffixy_starCl _))
  · exact consume_seqMx_right (suffixy_starCl _) (consume_plusCl _)
  · exact consume_seqMx_left (consume_plusCl _) (suffixy_lookNotCl _)
  · exact consume_plusCl _

theorem mem_optMx_id (p : Mx) (s : List Char) : s ∈ optMx p s :=
  List.mem_append_right _ (List.mem_singleton.mpr rfl)

theorem mem_seqMx {p q : Mx} {s y r : List Char}
    (hy : y ∈ p s) (hr : r ∈ q y) : r ∈ seqMx p q s :=
  List.mem_flatMap.mpr ⟨y, hy, hr⟩

theorem runLen_pos {f : Char → Bool} {c : Char} {rest : List Char}
    (hf : f c = true) : 1 ≤ runLen f (c :: rest) := by
  rw [runLen, List.takeWhile_cons_of_pos hf]
  simp

theorem runLen_le {f : Char → Bool} (s : List Char) : runLen f s ≤ s.length := by
  rw [runLen]
  exact (List.takeWhile_prefix f).length_le

theorem mem_starCl_id (f : Char → Bool) (s : List Char) : s ∈ starCl f s := by
  rw [starCl]
  refine List.mem_map.mpr ⟨0, ?_, by rw [List.drop_zero]⟩
  rw [List.mem_reverse, List.mem_range]
  omega

theorem mem_plusCl_one {f : Char → Bool} {c : Char} {rest : List Char}
    (hf : f c = true) : rest ∈ plusCl f (c :: rest) := by
  rw [plusCl]
  refine List.mem_map.mpr ⟨1, ?_, rfl⟩
  rw [List.mem_reverse, List.mem_range']
  have : 1 ≤ runLen f (c :: rest) := runLen_pos hf
  exact ⟨0, by omega, by omega⟩

theorem mem_repCl_one {f : Char → Bool} {c : Char} {rest : List Char}
    {hi : Nat} (hf : f c = true) (hhi : 1 ≤ hi) :
    rest ∈ repCl f 1 hi (c :: rest) := by
  rw [repCl]
  refine List.mem_map.mpr ⟨1, ?_, rfl⟩
  rw [List.mem_reverse, List.mem_range']
  have : 1 ≤ runLen f (c :: rest) := runLen_pos hf
  exact ⟨0, by omega, by omega⟩

/-- Coverage: when the letter class is the union of its subclasses (as in
Unicode, where `L = Lu ∪ Lt ∪ Lm ∪ Lo ∪ Ll`), some alternative matches at
every position. -/
theorem patternMx_cover (K : CharClasses)
    (HL : ∀ c : Char, K.isL c = true →
      (K.isLu c || K.isLt c || K.isLm c || K.isLo c || K.isLl c) = true)
    (c : Char) (rest : List Char) : patternMx K (c :: rest) ≠ [] := by
  have chain : ∀ x : List Char,
      (x ∈ branch1 K (c :: rest) ∨ x ∈ branch2 K (c :: rest) ∨
        x ∈ branch3 K (c :: rest) ∨ x ∈ branch4 K (c :: rest) ∨
        x ∈ branch7 K (c :: rest)) →
      patternMx K (c :: rest) ≠ [] := by
    intro x hx
    refine List.ne_nil_of_mem (a := x) ?_
    unfold patternMx altMx
    rcases hx with h | h | h | h | h
    · exact List.mem_append_left _ h
    · exact List.mem_append_right _ (List.mem_append_left _ h)
    · exact List.mem_append_right _ (List.mem_append_right _
        (List.mem_append_left _ h))
    · exact List.mem_append_right _ (List.mem_append_right _
        (List.mem_append_right _ (List.mem_append_left _ h)))
    · exact List.mem_append_right _ (List.mem_append_right _
        (List.mem_append_right _ (List.mem_append_right _
          (List.mem_append_right _ (List.mem_append_right _ h)))))
  by_cases hsp : K.isSpace c
  · exact chain rest (Or.inr (Or.inr (Or.inr (Or.inr (mem_plusCl_one hsp)))))
  · by_cases hnum : K.isNum c
    · refine chain rest (Or.inr (Or.inr (Or.inl ?_)))
      rw [branch3]
      exact mem_repCl_one hnum (by omega)
    · by_cases hl : K.isL c
      · have hsub := HL c hl
        by_cases hA : (K.isLu c || K.isLt c) = true
        · refine chain rest (Or.inr (Or.inl ?_))
          rw [branch2]
          refine mem_seqMx (mem_optMx_id _ _) ?_
          refine mem_seqMx (q := seqMx (starCl (classB K)) (optMx contrMx))
            (mem_plusCl_one (f := classA K) ?_) ?_
          · rw [classA]
            revert hA
            cases K.isLu c <;> cases K.isLt c <;> simp
          · exact mem_seqMx (mem_starCl_id _ _) (mem_optMx_id _ _)
        · refine chain rest (Or.inl ?_)
          rw [branch1]
          refine mem_seqMx (mem_optMx_id _ _) ?_
          refine mem_seqMx (p := starCl (classA K)) (mem_starCl_id _ _) ?_
          refine mem_seqMx (q := optMx contrMx)
            (mem_plusCl_one (f := classB K) ?_) (mem_optMx_id _ _)
          rw [classB]
          revert hsub hA
          cases K.isLu c <;> cases K.isLt c <;> cases K.isLm c <;>
            cases K.isLo c <;> cases K.isLl c <;> simp
      · refine chain rest (Or.inr (Or.inr (Or.inr (Or.inl ?_))))
        rw [branch4]
        refine mem_seqMx (mem_optMx_id _ _) ?_
        refine mem_seqMx (mem_plusCl_one (f := classPunct K) ?_)
          (mem_starCl_id _ _)
        rw [classPunct]
        revert hsp hl hnum
        cases K.isSpace c <;> cases K.isL c <;> cases K.isNum c <;> simp

/-- C9: for every input text and every character classification in which
the letter class is the union of its subclasses (true of the Unicode
categories the pattern uses), the pretokenizer emits its pieces in text
order and their concatenation reproduces the input exactly. -/
theorem C9_pretokenize_concat (K : CharClasses)
    (HL : ∀ c : Char, K.isL c = true →
      (K.isLu c || K.isLt c || K.isLm c || K.isLo c || K.isLl c) = true) :
    ∀ s : List Char, (findPieces K s).flatten = s := by
  have key : ∀ n : Nat, ∀ s : List Char, s.length ≤ n →
      (findPieces K s).flatten = s := by
    intro n
    induction n with
    | zero =>
      intro s hs
      have : s = [] := List.length_eq_zero.mp (by omega)
      subst this
      rw [findPieces]
      rfl
    | succ n IH =>
      intro s hs
      cases s with
      | nil => rw [findPieces]; rfl
      | cons c rest =>
        rw [findPieces]
        rcases hh : (patternMx K (c :: rest)).head? with _ | r
        · exact absurd (List.head?_eq_none_iff.mp hh)
            (patternMx_cover K HL c rest)
        · have hrmem : r ∈ patternMx K (c :: rest) :=
            List.mem_of_mem_head? (Option.mem_def.mpr hh)
          have hcons : r.length < (c :: rest).length :=
            consume_patternMx K _ _ hrmem
          change (if _h : r.length < (c :: rest).length then
              List.take ((c :: rest).length - r.length) (c :: rest) ::
                findPieces K r
            else findPieces K rest).flatten = c :: rest
          rw [dif_pos hcons]
          rcases suffixy_patternMx K _ _ hrmem with ⟨t, ht⟩
          have hflat := IH r (by
            simp only [List.length_cons] at hcons hs
            omega)
          rw [List.flatten_cons, hflat]
          have hlen : (c :: rest).length - r.length = t.length := by
            rw [← ht, List.length_append]
            omega
          rw [hlen, ← ht, List.take_left]
  intro s
  exact key s.length s (Nat.le_refl _)

/-- ASCII instantiation of the character classes, used as a witness. -/
def asciiK : CharClasses :=
  { isSpace := fun c => c == spaceChar || c == Char.ofNat 9 || c == crChar ||
      c == lfChar || c == Char.ofNat 11 || c == Char.ofNat 12
    isL := fun c => c.isUpper || c.isLower
    isNum := Char.isDigit
    isLu := Char.isUpper
    isLt := fun _ => false
    isLm := fun _ => false
    isLo := fun _ => false
    isLl := Char.isLower
    isM := fun _ => false }

/-- C9 witness: the theorem applied to the ASCII classes and the text
`ab1`. -/
theorem C9_witness :
    (findPieces asciiK ['a', 'b', '1']).flatten = ['a', 'b', '1'] :=
  C9_pretokenize_concat asciiK
    (by
      intro c h
      simp only [asciiK] at h ⊢
      rcases Bool.or_eq_true .. |>.mp h with h2 | h2 <;> simp [h2])
    ['a', 'b', '1']
